import Mathlib

/-!
Verification of the Poseidon duplex sponge
(`src/algorithms/src/crypto_hash/poseidon.rs`).

The Rust code is shallowly embedded over an arbitrary commutative ring `F`
(the prime-field arithmetic is an external collaborator in the spec, and the
sponge only uses `0`, `+`, `*` and fixed-exponent `pow`).  Machine `usize`
values are modelled as `Nat`: none of the modelled quantities (offsets,
lengths, round counts) can realistically overflow 64 bits, and the code
performs no wrapping arithmetic on them.

A ghost field `permCount` is added to the sponge record.  It is bumped by
`permute` and read by nothing, so it does not influence state or mode; it
makes claims of the form "this call runs exactly one permutation" directly
statable.
-/

namespace Poseidon

/-- `PoseidonParameters` (round constants `ark`, mixing matrix `mds`, round
counts, S-box exponent `alpha`).  `alpha` is a `u64` exponent in the source;
here a `Nat`. -/
structure PoseidonParameters (F : Type) where
  full_rounds : ℕ
  partial_rounds : ℕ
  alpha : ℕ
  ark : List (List F)
  mds : List (List F)

/-- `State<F, RATE, CAPACITY>`: capacity-prefix / rate-suffix pair.  The
const generics `RATE`/`CAPACITY` are passed to the operations; well-formed
states have `capacity_state.length = CAPACITY` and
`rate_state.length = RATE`. -/
structure State (F : Type) where
  capacity_state : List F
  rate_state : List F
deriving DecidableEq

/-- `DuplexSpongeMode`. -/
inductive DuplexSpongeMode : Type where
  | Absorbing (next_absorb_index : ℕ)
  | Squeezing (next_squeeze_index : ℕ)
deriving DecidableEq

/-- The offset payload of either mode constructor. -/
def DuplexSpongeMode.offsetOf : DuplexSpongeMode → ℕ
  | .Absorbing i => i
  | .Squeezing i => i

/-- `PoseidonSponge` minus the (read-only, behaviourally inert) `Arc` of
parameters, which is threaded as an explicit argument instead; plus the
ghost permutation counter. -/
structure PoseidonSponge (F : Type) where
  state : State F
  mode : DuplexSpongeMode
  permCount : ℕ
deriving DecidableEq

variable {F : Type} [CommRing F]

/-- `for (a, b) in xs.iter_mut().zip(ys) { *a += b }`: add `ys` element-wise
into a prefix of `xs`, keeping the unzipped tail of `xs`.  Used both by
`apply_ark` (state vs. round-constant row) and by absorption (chunk into the
rate slice). -/
def addInto : List F → List F → List F
  | xs, [] => xs
  | [], _ => []
  | x :: xs, y :: ys => (x + y) :: addInto xs ys

/-- Add `chunk` element-wise into `st` starting at position `rs`
(`chunk.iter().zip(&mut st[rs..])`); positions before `rs` and positions
past the zipped prefix are unchanged. -/
def rateAdd : List F → ℕ → List F → List F
  | st, 0, chunk => addInto st chunk
  | [], _ + 1, _ => []
  | s0 :: st, rs + 1, chunk => s0 :: rateAdd st rs chunk

/-- `slice::chunks(n)`: consecutive chunks of size `n`, last possibly
shorter.  (Rust panics on `n = 0`; we return `[]` in that out-of-contract
case.) -/
def chunksOf (n : ℕ) : List F → List (List F)
  | [] => []
  | x :: xs =>
    if h : n = 0 then []
    else (x :: xs).take n :: chunksOf n ((x :: xs).drop n)
termination_by l => l.length
decreasing_by
  simp only [List.length_drop, List.length_cons]
  omega

/-- The sizes of the chunks `chunks_mut(n)` cuts a buffer of length `m`
into. -/
def chunkSizesOf (n : ℕ) (m : ℕ) : List ℕ :=
  if h : m = 0 ∨ n = 0 then []
  else min n m :: chunkSizesOf n (m - n)
termination_by m
decreasing_by
  simp only [not_or] at h
  omega

/-- `apply_ark`: add round `round_number`'s constant row element-wise into
the state list (capacity part first, then rate part, as `State::iter_mut`
yields them). -/
def apply_ark (P : PoseidonParameters F) (l : List F) (round_number : ℕ) : List F :=
  addInto l (P.ark.getD round_number [])

/-- `apply_s_box`: full rounds raise every element to `alpha`; partial
rounds only element 0. -/
def apply_s_box (P : PoseidonParameters F) (l : List F) (is_full_round : Bool) : List F :=
  if is_full_round then l.map (fun x => x ^ P.alpha)
  else
    match l with
    | [] => []
    | x :: xs => x ^ P.alpha :: xs

/-- One entry of the matrix-vector product: `Σ (mds_elem * state_elem)` over
the zipped row/state. -/
def dotRow (row l : List F) : F :=
  (List.zipWith (fun m s => m * s) row l).sum

/-- `apply_mds`: fresh zero state of width `CAPACITY + RATE`; entry `j` gets
row `j` of `mds` dotted with the old state (rows beyond `mds.length` leave
the zero, which `dotRow` of the `[]` default also produces). -/
def apply_mds (RATE CAPACITY : ℕ) (P : PoseidonParameters F) (l : List F) : List F :=
  (List.range (CAPACITY + RATE)).map (fun j => dotRow (P.mds.getD j []) l)

/-- The body of one round `i` of `permute`. -/
def roundFn (RATE CAPACITY : ℕ) (P : PoseidonParameters F) (st : List F) (i : ℕ) : List F :=
  let is_full_round : Bool :=
    ! decide (P.full_rounds / 2 ≤ i ∧ i < P.full_rounds / 2 + P.partial_rounds)
  apply_mds RATE CAPACITY P (apply_s_box P (apply_ark P st i) is_full_round)

/-- `permute` on the bare state: fold the round body over
`0..(partial_rounds + full_rounds)`, traversing the state as
`capacity_state ++ rate_state` (the `State::iter` order). -/
def permuteState (RATE CAPACITY : ℕ) (P : PoseidonParameters F) (s : State F) : State F :=
  let l := (List.range (P.partial_rounds + P.full_rounds)).foldl
    (roundFn RATE CAPACITY P) (s.capacity_state ++ s.rate_state)
  { capacity_state := l.take CAPACITY, rate_state := l.drop CAPACITY }

/-- `PoseidonSponge::permute` (bumping the ghost counter). -/
def permute (RATE CAPACITY : ℕ) (P : PoseidonParameters F) (sp : PoseidonSponge F) :
    PoseidonSponge F :=
  { sp with state := permuteState RATE CAPACITY P sp.state, permCount := sp.permCount + 1 }

/-- Add `chunk` into the rate region starting at `rate_start` (the body of
one absorb-loop iteration, before the last-chunk test). -/
def addChunkSp (rate_start : ℕ) (chunk : List F) (sp : PoseidonSponge F) : PoseidonSponge F :=
  { sp with state :=
      { sp.state with rate_state := rateAdd sp.state.rate_state rate_start chunk } }

/-- The `for (i, chunk) in ...enumerate()` loop of `absorb_internal`: on the
chunk with `i = total_num_chunks - 1` set the mode and stop; otherwise
permute and continue at `rate_start = 0`. -/
def absorbLoop (RATE CAPACITY : ℕ) (P : PoseidonParameters F) (total : ℕ) :
    ℕ → ℕ → List (List F) → PoseidonSponge F → PoseidonSponge F
  | _, _, [], sp => sp
  | i, rate_start, chunk :: rest, sp =>
    let sp1 := addChunkSp rate_start chunk sp
    if i = total - 1 then
      { sp1 with mode := .Absorbing (rate_start + chunk.length) }
    else
      absorbLoop RATE CAPACITY P total (i + 1) 0 rest (permute RATE CAPACITY P sp1)

/-- `PoseidonSponge::absorb_internal`. -/
def absorb_internal (RATE CAPACITY : ℕ) (P : PoseidonParameters F) (rate_start : ℕ)
    (elements : List F) (sp : PoseidonSponge F) : PoseidonSponge F :=
  if elements.isEmpty then sp
  else
    let first_chunk_size := min (RATE - rate_start) elements.length
    let num_elements_remaining := elements.length - first_chunk_size
    let chunkList :=
      elements.take first_chunk_size :: chunksOf RATE (elements.drop first_chunk_size)
    let total_num_chunks := 1 + num_elements_remaining / RATE +
      (if num_elements_remaining % RATE ≠ 0 then 1 else 0)
    absorbLoop RATE CAPACITY P total_num_chunks 0 rate_start chunkList sp

/-- `AlgebraicSponge::absorb`. -/
def absorb (RATE CAPACITY : ℕ) (P : PoseidonParameters F) (input : List F)
    (sp : PoseidonSponge F) : PoseidonSponge F :=
  if input.isEmpty then sp
  else
    match sp.mode with
    | .Absorbing next_absorb_index =>
      if next_absorb_index = RATE then
        absorb_internal RATE CAPACITY P 0 input (permute RATE CAPACITY P sp)
      else
        absorb_internal RATE CAPACITY P next_absorb_index input sp
    | .Squeezing _ =>
      absorb_internal RATE CAPACITY P 0 input (permute RATE CAPACITY P sp)

/-- The `for (i, chunk) in ...enumerate()` loop of `squeeze_internal`: each
chunk is copied out of the rate region (`chunk.copy_from_slice`) before the
last-chunk test; on the last chunk set the mode and stop, otherwise permute
and continue at `rate_start = 0`.  The written output chunks are returned as
a list. -/
def squeezeLoop (RATE CAPACITY : ℕ) (P : PoseidonParameters F) (total : ℕ) :
    ℕ → ℕ → List ℕ → PoseidonSponge F → List F × PoseidonSponge F
  | _, _, [], sp => ([], sp)
  | i, rate_start, csize :: rest, sp =>
    let chunkOut := (sp.state.rate_state.drop rate_start).take csize
    if i = total - 1 then
      (chunkOut, { sp with mode := .Squeezing (rate_start + csize) })
    else
      let r := squeezeLoop RATE CAPACITY P total (i + 1) 0 rest (permute RATE CAPACITY P sp)
      (chunkOut ++ r.1, r.2)

/-- `PoseidonSponge::squeeze_internal` for an output buffer of length
`n`. -/
def squeeze_internal (RATE CAPACITY : ℕ) (P : PoseidonParameters F) (rate_start : ℕ)
    (n : ℕ) (sp : PoseidonSponge F) : List F × PoseidonSponge F :=
  if n = 0 then ([], sp)
  else
    let first_chunk_size := min (RATE - rate_start) n
    let num_output_remaining := n - first_chunk_size
    let sizeList := first_chunk_size :: chunkSizesOf RATE num_output_remaining
    let total_num_chunks := 1 + num_output_remaining / RATE +
      (if num_output_remaining % RATE ≠ 0 then 1 else 0)
    squeezeLoop RATE CAPACITY P total_num_chunks 0 rate_start sizeList sp

/-- `AlgebraicSponge::squeeze_field_elements` (the SmallVec zero-fill and
`truncate` collapse to returning exactly the written prefix). -/
def squeeze_field_elements (RATE CAPACITY : ℕ) (P : PoseidonParameters F)
    (num_elements : ℕ) (sp : PoseidonSponge F) : List F × PoseidonSponge F :=
  if num_elements = 0 then ([], sp)
  else
    match sp.mode with
    | .Absorbing _ =>
      squeeze_internal RATE CAPACITY P 0 num_elements (permute RATE CAPACITY P sp)
    | .Squeezing next_squeeze_index =>
      if next_squeeze_index = RATE then
        squeeze_internal RATE CAPACITY P 0 num_elements (permute RATE CAPACITY P sp)
      else
        squeeze_internal RATE CAPACITY P next_squeeze_index num_elements sp

/-- `AlgebraicSponge::with_parameters`: zero state, mode `Absorbing 0`
(ghost counter starts at 0). -/
def with_parameters (RATE CAPACITY : ℕ) : PoseidonSponge F :=
  { state := { capacity_state := List.replicate CAPACITY 0, rate_state := List.replicate RATE 0 },
    mode := .Absorbing 0,
    permCount := 0 }

/-- `PoseidonCryptoHash::evaluate`: fresh sponge with `CAPACITY = 1`, absorb
all input in one call, squeeze one element. -/
def evaluate (RATE : ℕ) (P : PoseidonParameters F) (input : List F) : F :=
  let sponge := with_parameters RATE 1
  let sponge := absorb RATE 1 P input sponge
  ((squeeze_field_elements RATE 1 P 1 sponge).1).getD 0 0

/-- A single external call to the sponge. -/
inductive SpongeCall (F : Type) where
  | absorbCall (input : List F)
  | squeezeCall (n : ℕ)

/-- Run a sequence of absorb/squeeze calls, collecting all squeezed
output. -/
def runCalls (RATE CAPACITY : ℕ) (P : PoseidonParameters F) :
    List (SpongeCall F) → PoseidonSponge F → PoseidonSponge F × List F
  | [], sp => (sp, [])
  | .absorbCall xs :: rest, sp =>
    runCalls RATE CAPACITY P rest (absorb RATE CAPACITY P xs sp)
  | .squeezeCall n :: rest, sp =>
    let r := squeeze_field_elements RATE CAPACITY P n sp
    let r2 := runCalls RATE CAPACITY P rest r.2
    (r2.1, r.1 ++ r2.2)

/-- `State::range`: the two `assert!`s are modelled as `none`; the three
slicing branches return the selected elements in order. -/
def State.range (RATE CAPACITY : ℕ) (s : State F) (start stop : ℕ) : Option (List F) :=
  if ¬ (start < stop) then none
  else if ¬ (stop ≤ RATE + CAPACITY) then none
  else if CAPACITY ≤ start then
    some ((s.rate_state.drop (start - CAPACITY)).take (stop - start))
  else if CAPACITY < stop then
    some (s.capacity_state.drop start ++ s.rate_state.take (stop - CAPACITY))
  else
    some ((s.capacity_state.drop start).take (stop - start))

/-!
## Specification-side definitions

These render the relevant sentences of `spec.md` (§4.2–§4.4) literally, to
be compared with the source-derived definitions above.  They intentionally
use different idioms (index-wise vector/matrix operations, direct recursion
on the remaining input) than the translated Rust.
-/

/-- Spec §4.2: round `i` is partial iff
`full_rounds/2 ≤ i < full_rounds/2 + partial_rounds` (integer division for
the start). -/
def specPartialRound (P : PoseidonParameters F) (i : ℕ) : Prop :=
  P.full_rounds / 2 ≤ i ∧ i < P.full_rounds / 2 + P.partial_rounds

instance (P : PoseidonParameters F) (i : ℕ) : Decidable (specPartialRound P i) :=
  inferInstanceAs (Decidable (_ ∧ _))

/-- Spec §4.2 step 1: add round `i`'s constant vector element-wise to the
state. -/
def specAddRoundKey (P : PoseidonParameters F) (l : List F) (i : ℕ) : List F :=
  List.zipWith (fun a b => a + b) l (P.ark.getD i [])

/-- Spec §4.2 step 2: partial rounds raise only state element 0 to the
power `alpha`; full rounds raise every element. -/
def specSBox (P : PoseidonParameters F) (l : List F) (i : ℕ) : List F :=
  if specPartialRound P i then l.set 0 (l.getD 0 0 ^ P.alpha)
  else l.map (fun x => x ^ P.alpha)

/-- Spec §4.2 step 3: `new[j] = Σ_k matrix[j][k] * state[k]` over the full
width. -/
def specLinear (RATE CAPACITY : ℕ) (P : PoseidonParameters F) (l : List F) : List F :=
  (List.range (CAPACITY + RATE)).map (fun j =>
    ((List.range (CAPACITY + RATE)).map
      (fun k => (P.mds.getD j []).getD k 0 * l.getD k 0)).sum)

/-- Spec §4.2: `full_rounds + partial_rounds` sequential rounds, each
add-round-key, then nonlinear layer, then linear layer. -/
def specPermute (RATE CAPACITY : ℕ) (P : PoseidonParameters F) (l : List F) : List F :=
  (List.range (P.full_rounds + P.partial_rounds)).foldl
    (fun st i => specLinear RATE CAPACITY P (specSBox P (specAddRoundKey P st i) i)) l

/-- Spec §4.3, chunk consumption: the first chunk fills `rate - offset`
slots starting at `offset` (element-wise addition); if elements remain, run
Permutation and consume subsequent chunks of up to `rate` elements starting
at offset 0; after the final chunk do not permute and set mode to
`Absorbing (offset + chunk_length)`.  (The `RATE - offset = 0` guard is
unreachable from the §4.3 entry conditions and exists only for
totality.) -/
def specConsume (RATE CAPACITY : ℕ) (P : PoseidonParameters F) (offset : ℕ)
    (input : List F) (sp : PoseidonSponge F) : PoseidonSponge F :=
  if hz : RATE - offset = 0 then sp
  else if h : input.length ≤ RATE - offset then
    { addChunkSp offset input sp with mode := .Absorbing (offset + input.length) }
  else
    specConsume RATE CAPACITY P 0 (input.drop (RATE - offset))
      (permute RATE CAPACITY P (addChunkSp offset (input.take (RATE - offset)) sp))
termination_by input.length
decreasing_by
  simp only [List.length_drop]
  omega

/-- Spec §4.3: no-op on empty input; from `Squeezing{*}` permute once and
restart absorbing at offset 0; from `Absorbing{rate}` permute once and
reset the offset to 0; then consume the input in chunks. -/
def specAbsorb (RATE CAPACITY : ℕ) (P : PoseidonParameters F) (input : List F)
    (sp : PoseidonSponge F) : PoseidonSponge F :=
  if input.isEmpty then sp
  else
    match sp.mode with
    | .Squeezing _ =>
      specConsume RATE CAPACITY P 0 input (permute RATE CAPACITY P sp)
    | .Absorbing offset =>
      if offset = RATE then
        specConsume RATE CAPACITY P 0 input (permute RATE CAPACITY P sp)
      else specConsume RATE CAPACITY P offset input sp

/-- Spec §4.4, chunk production: copy the first `rate - offset` output
slots from the rate region starting at `offset`; if more output is needed,
run Permutation and copy subsequent chunks of up to `rate` elements from
offset 0; after the final chunk set mode to `Squeezing (offset +
chunk_length)` with no trailing permutation. -/
def specProduce (RATE CAPACITY : ℕ) (P : PoseidonParameters F) (offset : ℕ) (n : ℕ)
    (sp : PoseidonSponge F) : List F × PoseidonSponge F :=
  if hz : RATE - offset = 0 then ([], sp)
  else if h : n ≤ RATE - offset then
    ((sp.state.rate_state.drop offset).take n, { sp with mode := .Squeezing (offset + n) })
  else
    let chunk := (sp.state.rate_state.drop offset).take (RATE - offset)
    let r := specProduce RATE CAPACITY P 0 (n - (RATE - offset)) (permute RATE CAPACITY P sp)
    (chunk ++ r.1, r.2)
termination_by n
decreasing_by
  omega

/-- Spec §4.4: empty output on `n = 0`; from `Absorbing{*}` permute once
and read from offset 0; from `Squeezing{rate}` permute once and reset the
offset to 0; then produce the output in chunks. -/
def specSqueeze (RATE CAPACITY : ℕ) (P : PoseidonParameters F) (n : ℕ)
    (sp : PoseidonSponge F) : List F × PoseidonSponge F :=
  if n = 0 then ([], sp)
  else
    match sp.mode with
    | .Absorbing _ =>
      specProduce RATE CAPACITY P 0 n (permute RATE CAPACITY P sp)
    | .Squeezing offset =>
      if offset = RATE then
        specProduce RATE CAPACITY P 0 n (permute RATE CAPACITY P sp)
      else specProduce RATE CAPACITY P offset n sp

/-!
## One-element normal form

`absorb1`/`squeeze1` process a single element with the lazy-permutation
discipline of the sponge.  Folding them is proved equal to `absorb` /
`squeeze_field_elements`; all chunking claims reduce to facts about these
folds.
-/

/-- Absorb a single element. -/
def absorb1 (RATE CAPACITY : ℕ) (P : PoseidonParameters F) (sp : PoseidonSponge F)
    (x : F) : PoseidonSponge F :=
  match sp.mode with
  | .Absorbing o =>
    if o = RATE then
      let sp1 := permute RATE CAPACITY P sp
      { addChunkSp 0 [x] sp1 with mode := .Absorbing 1 }
    else
      { addChunkSp o [x] sp with mode := .Absorbing (o + 1) }
  | .Squeezing _ =>
    let sp1 := permute RATE CAPACITY P sp
    { addChunkSp 0 [x] sp1 with mode := .Absorbing 1 }

/-- Absorb a list one element at a time. -/
def absorbFold (RATE CAPACITY : ℕ) (P : PoseidonParameters F) (xs : List F)
    (sp : PoseidonSponge F) : PoseidonSponge F :=
  xs.foldl (absorb1 RATE CAPACITY P) sp

/-- Squeeze a single element. -/
def squeeze1 (RATE CAPACITY : ℕ) (P : PoseidonParameters F) (sp : PoseidonSponge F) :
    F × PoseidonSponge F :=
  match sp.mode with
  | .Absorbing _ =>
    let sp1 := permute RATE CAPACITY P sp
    (sp1.state.rate_state.getD 0 0, { sp1 with mode := .Squeezing 1 })
  | .Squeezing o =>
    if o = RATE then
      let sp1 := permute RATE CAPACITY P sp
      (sp1.state.rate_state.getD 0 0, { sp1 with mode := .Squeezing 1 })
    else
      (sp.state.rate_state.getD o 0, { sp with mode := .Squeezing (o + 1) })

/-- Squeeze `n` elements one at a time. -/
def squeezeN (RATE CAPACITY : ℕ) (P : PoseidonParameters F) :
    ℕ → PoseidonSponge F → List F × PoseidonSponge F
  | 0, sp => ([], sp)
  | n + 1, sp =>
    let r1 := squeeze1 RATE CAPACITY P sp
    let r2 := squeezeN RATE CAPACITY P n r1.2
    (r1.1 :: r2.1, r2.2)

/-!
## Basic lemmas about the list primitives
-/

theorem addInto_nil (xs : List F) : addInto xs ([] : List F) = xs := by
  cases xs <;> rfl

theorem addInto_length (xs ys : List F) : (addInto xs ys).length = xs.length := by
  induction xs generalizing ys with
  | nil => cases ys <;> rfl
  | cons x xs ih => cases ys with
    | nil => rfl
    | cons y ys => simp [addInto, ih]

theorem rateAdd_nil (st : List F) (rs : ℕ) : rateAdd st rs ([] : List F) = st := by
  induction st generalizing rs with
  | nil => cases rs <;> rfl
  | cons s st ih =>
    cases rs with
    | zero => simp [rateAdd, addInto]
    | succ rs => simp [rateAdd, ih]

theorem rateAdd_length (st : List F) (rs : ℕ) (c : List F) :
    (rateAdd st rs c).length = st.length := by
  induction st generalizing rs c with
  | nil => cases rs <;> cases c <;> simp [rateAdd, addInto_length]
  | cons s st ih =>
    cases rs with
    | zero => simp [rateAdd, addInto_length]
    | succ rs => simp [rateAdd, ih]

theorem addInto_cons_split (st : List F) (x : F) (c : List F) :
    addInto st (x :: c) = rateAdd (addInto st [x]) 1 c := by
  cases st with
  | nil => cases c <;> rfl
  | cons s st =>
    cases c with
    | nil => simp [addInto, rateAdd, addInto_nil]
    | cons y ys => simp [addInto, rateAdd]

theorem rateAdd_cons (st : List F) (rs : ℕ) (x : F) (c : List F) :
    rateAdd st rs (x :: c) = rateAdd (rateAdd st rs [x]) (rs + 1) c := by
  induction st generalizing rs with
  | nil => cases rs <;> cases c <;> rfl
  | cons s st ih =>
    cases rs with
    | zero => simpa [rateAdd] using addInto_cons_split (s :: st) x c
    | succ rs => simp [rateAdd, ih]

theorem chunksOf_ne_nil {n : ℕ} (hn : n ≠ 0) {l : List F} (hl : l ≠ []) :
    chunksOf n l ≠ [] := by
  cases l with
  | nil => exact absurd rfl hl
  | cons x xs => simp [chunksOf, hn]

theorem chunksOf_cons_eq {n : ℕ} (hn : n ≠ 0) {l : List F} (hl : l ≠ []) :
    chunksOf n l = l.take n :: chunksOf n (l.drop n) := by
  cases l with
  | nil => exact absurd rfl hl
  | cons x xs => simp [chunksOf, hn]

theorem chunksOf_length {n : ℕ} (hn : 0 < n) (l : List F) :
    (chunksOf n l).length = l.length / n + (if l.length % n ≠ 0 then 1 else 0) := by
  induction' hL : l.length using Nat.strongRecOn with L IH generalizing l
  subst hL
  cases l with
  | nil => simp [chunksOf, Nat.zero_div, Nat.zero_mod]
  | cons x xs =>
    rw [chunksOf_cons_eq (Nat.pos_iff_ne_zero.mp hn) (List.cons_ne_nil x xs)]
    rw [List.length_cons]
    rw [IH ((x :: xs).drop n).length (by simp [List.length_drop]; omega) _ rfl]
    simp only [List.length_drop, List.length_cons]
    rcases Nat.lt_or_ge (xs.length + 1) n with hlt | hge
    · have h1 : xs.length + 1 - n = 0 := by omega
      have h2 : (xs.length + 1) / n = 0 := Nat.div_eq_of_lt hlt
      have h3 : (xs.length + 1) % n = xs.length + 1 := Nat.mod_eq_of_lt hlt
      simp only [h1, h2, h3, Nat.zero_div, Nat.zero_mod]
      simp
    · obtain ⟨M, hM⟩ : ∃ M, xs.length + 1 = n + M := ⟨xs.length + 1 - n, by omega⟩
      simp only [hM, Nat.add_sub_cancel_left, Nat.add_comm n M, Nat.add_div_right M hn,
        Nat.add_mod_right M n]
      by_cases hmod : M % n = 0 <;> simp [hmod]

theorem chunkSizesOf_ne_nil {n m : ℕ} (hn : n ≠ 0) (hm : m ≠ 0) :
    chunkSizesOf n m ≠ [] := by
  rw [chunkSizesOf]
  simp [hn, hm]

theorem chunkSizesOf_eq {n m : ℕ} (hn : n ≠ 0) (hm : m ≠ 0) :
    chunkSizesOf n m = min n m :: chunkSizesOf n (m - n) := by
  rw [chunkSizesOf]
  simp [hn, hm]

theorem chunkSizesOf_length {n : ℕ} (hn : 0 < n) (m : ℕ) :
    (chunkSizesOf n m).length = m / n + (if m % n ≠ 0 then 1 else 0) := by
  induction m using Nat.strongRecOn with
  | ind m IH =>
    rcases Nat.eq_zero_or_pos m with hm | hm
    · subst hm; simp [chunkSizesOf, Nat.zero_div, Nat.zero_mod]
    · rw [chunkSizesOf_eq (Nat.pos_iff_ne_zero.mp hn) (Nat.pos_iff_ne_zero.mp hm)]
      rw [List.length_cons, IH (m - n) (by omega)]
      rcases Nat.lt_or_ge m n with hlt | hge
      · have h1 : m - n = 0 := by omega
        have h2 : m / n = 0 := Nat.div_eq_of_lt hlt
        have h3 : m % n = m := Nat.mod_eq_of_lt hlt
        rw [h1, h2, h3]
        simp [Nat.zero_div, Nat.zero_mod, Nat.pos_iff_ne_zero.mp hm]
      · obtain ⟨M, hM⟩ : ∃ M, m = n + M := ⟨m - n, by omega⟩
        rw [hM]
        have h1 : n + M - n = M := by omega
        rw [h1, Nat.add_comm n M, Nat.add_div_right M hn, Nat.add_mod_right M n]
        by_cases hmod : M % n = 0 <;> simp [hmod] <;> omega

/-- Fold a step function that preserves an invariant: the fold preserves
it. -/
theorem foldl_inv {α β : Type} (Inv : α → Prop) (f : α → β → α)
    (hf : ∀ x b, Inv x → Inv (f x b)) :
    ∀ (l : List β) (a : α), Inv a → Inv (l.foldl f a) := by
  intro l
  induction l with
  | nil => intro a ha; exact ha
  | cons b l ih => intro a ha; exact ih (f a b) (hf a b ha)

/-!
## Reduction of `absorb` to the one-element fold
-/

theorem take_min_length {α : Type} (l : List α) (n : ℕ) :
    l.take (min n l.length) = l.take n := by
  rcases le_total n l.length with h | h
  · rw [min_eq_left h]
  · rw [min_eq_right h, List.take_length, List.take_of_length_le h]

theorem drop_min_length {α : Type} (l : List α) (n : ℕ) :
    l.drop (min n l.length) = l.drop n := by
  rcases le_total n l.length with h | h
  · rw [min_eq_left h]
  · rw [min_eq_right h, List.drop_length, List.drop_eq_nil_of_le h]

theorem addChunkSp_nil (rs : ℕ) (sp : PoseidonSponge F) :
    addChunkSp rs ([] : List F) sp = sp := by
  simp [addChunkSp, rateAdd_nil]

theorem addChunkSp_cons (rs : ℕ) (x : F) (c : List F) (sp : PoseidonSponge F) :
    addChunkSp rs (x :: c) sp = addChunkSp (rs + 1) c (addChunkSp rs [x] sp) := by
  simp only [addChunkSp]
  rw [rateAdd_cons]

theorem absorbFold_nil (RATE CAPACITY : ℕ) (P : PoseidonParameters F)
    (sp : PoseidonSponge F) : absorbFold RATE CAPACITY P [] sp = sp := rfl

theorem absorbFold_cons (RATE CAPACITY : ℕ) (P : PoseidonParameters F) (x : F)
    (xs : List F) (sp : PoseidonSponge F) :
    absorbFold RATE CAPACITY P (x :: xs) sp
      = absorbFold RATE CAPACITY P xs (absorb1 RATE CAPACITY P sp x) := rfl

theorem absorbFold_append (RATE CAPACITY : ℕ) (P : PoseidonParameters F)
    (xs ys : List F) (sp : PoseidonSponge F) :
    absorbFold RATE CAPACITY P (xs ++ ys) sp
      = absorbFold RATE CAPACITY P ys (absorbFold RATE CAPACITY P xs sp) :=
  List.foldl_append _ _ _ _

/-- Folding `absorb1` over a chunk that fits in the rate region from offset
`rs` adds the chunk element-wise at `rs` and advances the offset by the
chunk length, with no permutation. -/
theorem absorbFold_chunk (RATE CAPACITY : ℕ) (P : PoseidonParameters F) :
    ∀ (c : List F) (rs : ℕ) (sp : PoseidonSponge F), rs + c.length ≤ RATE →
      absorbFold RATE CAPACITY P c { sp with mode := .Absorbing rs }
        = { addChunkSp rs c sp with mode := .Absorbing (rs + c.length) } := by
  intro c
  induction c with
  | nil =>
    intro rs sp _
    simp [absorbFold_nil, addChunkSp_nil]
  | cons x c ih =>
    intro rs sp hle
    have hrs : rs ≠ RATE := by simp at hle; omega
    rw [absorbFold_cons]
    have h1 : absorb1 RATE CAPACITY P { sp with mode := .Absorbing rs } x
        = { addChunkSp rs [x] sp with mode := .Absorbing (rs + 1) } := by
      simp [absorb1, hrs, addChunkSp]
    rw [h1, ih (rs + 1) (addChunkSp rs [x] sp) (by simp at hle ⊢; omega)]
    rw [← addChunkSp_cons]
    have : rs + 1 + c.length = rs + (x :: c).length := by simp; omega
    rw [this]

/-- Entry normalization: from `Absorbing RATE`, the fold lazily permutes on
its first element, exactly as if the state had been permuted up front and
the offset reset to 0. -/
theorem absorbFold_absorbing_rate (RATE CAPACITY : ℕ) (P : PoseidonParameters F)
    (hR : 0 < RATE) (s : State F) (pc : ℕ) (xs : List F) (hxs : xs ≠ []) :
    absorbFold RATE CAPACITY P xs ⟨s, .Absorbing RATE, pc⟩
      = absorbFold RATE CAPACITY P xs
          ⟨permuteState RATE CAPACITY P s, .Absorbing 0, pc + 1⟩ := by
  cases xs with
  | nil => exact absurd rfl hxs
  | cons x xs =>
    rw [absorbFold_cons, absorbFold_cons]
    congr 1
    have hR' : 0 ≠ RATE := by omega
    simp [absorb1, hR'.symm, hR', permute, addChunkSp]

/-- Entry normalization: from `Squeezing{*}`, the fold permutes on its
first element and restarts absorbing at offset 0 (any squeeze offset). -/
theorem absorbFold_squeezing (RATE CAPACITY : ℕ) (P : PoseidonParameters F)
    (hR : 0 < RATE) (s : State F) (k pc : ℕ) (xs : List F) (hxs : xs ≠ []) :
    absorbFold RATE CAPACITY P xs ⟨s, .Squeezing k, pc⟩
      = absorbFold RATE CAPACITY P xs
          ⟨permuteState RATE CAPACITY P s, .Absorbing 0, pc + 1⟩ := by
  cases xs with
  | nil => exact absurd rfl hxs
  | cons x xs =>
    rw [absorbFold_cons, absorbFold_cons]
    congr 1
    have hR' : 0 ≠ RATE := by omega
    simp [absorb1, hR', permute, addChunkSp]

/-- Splitting a fold at the rate boundary: consuming the first
`RATE - rs` elements fills the rate region exactly, and the rest is
consumed after one permutation from offset 0. -/
theorem absorbFold_split (RATE CAPACITY : ℕ) (P : PoseidonParameters F)
    (hR : 0 < RATE) (xs : List F) (rs : ℕ) (sp : PoseidonSponge F)
    (hrs : rs < RATE) (hlong : RATE - rs < xs.length) :
    absorbFold RATE CAPACITY P xs { sp with mode := .Absorbing rs }
      = absorbFold RATE CAPACITY P (xs.drop (RATE - rs))
          { permute RATE CAPACITY P (addChunkSp rs (xs.take (RATE - rs)) sp) with
              mode := .Absorbing 0 } := by
  conv_lhs => rw [← List.take_append_drop (RATE - rs) xs]
  rw [absorbFold_append]
  have hlen : (xs.take (RATE - rs)).length = RATE - rs := by
    rw [List.length_take]; omega
  rw [absorbFold_chunk RATE CAPACITY P _ rs sp (by rw [hlen]; omega)]
  have hfill : rs + (xs.take (RATE - rs)).length = RATE := by rw [hlen]; omega
  rw [hfill]
  have hrest : xs.drop (RATE - rs) ≠ [] := by
    have : (xs.drop (RATE - rs)).length ≠ 0 := by rw [List.length_drop]; omega
    exact fun h => this (by rw [h]; rfl)
  have := absorbFold_absorbing_rate RATE CAPACITY P hR
    (addChunkSp rs (xs.take (RATE - rs)) sp).state
    (addChunkSp rs (xs.take (RATE - rs)) sp).permCount (xs.drop (RATE - rs)) hrest
  simpa [permute] using this

/-- The chunked absorb loop of the source computes the one-element fold. -/
theorem absorbLoop_eq_fold (RATE CAPACITY : ℕ) (P : PoseidonParameters F)
    (hR : 0 < RATE) :
    ∀ (xs : List F) (rs : ℕ) (sp : PoseidonSponge F) (i total : ℕ),
      rs < RATE → xs ≠ [] →
      i + 1 + (chunksOf RATE (xs.drop (min (RATE - rs) xs.length))).length = total →
      absorbLoop RATE CAPACITY P total i rs
        (xs.take (min (RATE - rs) xs.length)
          :: chunksOf RATE (xs.drop (min (RATE - rs) xs.length))) sp
        = absorbFold RATE CAPACITY P xs { sp with mode := .Absorbing rs } := by
  intro xs
  induction' hL : xs.length using Nat.strongRecOn with L IH generalizing xs
  intro rs sp i total hrs hxs htotal
  subst hL
  rcases le_or_lt xs.length (RATE - rs) with hcase | hcase
  · have hmin : min (RATE - rs) xs.length = xs.length := min_eq_right hcase
    rw [hmin] at htotal ⊢
    rw [List.drop_length] at htotal ⊢
    rw [List.take_length]
    have hcl : chunksOf RATE ([] : List F) = [] := by simp [chunksOf]
    rw [hcl] at htotal ⊢
    simp only [List.length_nil, Nat.add_zero] at htotal
    simp only [absorbLoop]
    rw [if_pos (by omega : i = total - 1)]
    exact (absorbFold_chunk RATE CAPACITY P xs rs sp (by omega)).symm
  · have hmin : min (RATE - rs) xs.length = RATE - rs :=
      min_eq_left (le_of_lt hcase)
    rw [hmin] at htotal ⊢
    have hrest : xs.drop (RATE - rs) ≠ [] := by
      have : (xs.drop (RATE - rs)).length ≠ 0 := by rw [List.length_drop]; omega
      exact fun h => this (by rw [h]; rfl)
    have hcons := chunksOf_cons_eq (show RATE ≠ 0 by omega) hrest
    have htotal2 :
        i + 1 + ((chunksOf RATE ((xs.drop (RATE - rs)).drop RATE)).length + 1) = total := by
      rw [hcons] at htotal
      simpa using htotal
    simp only [absorbLoop]
    rw [if_neg (by omega : ¬ i = total - 1)]
    have hdropchunks :
        chunksOf RATE (xs.drop (RATE - rs))
          = (xs.drop (RATE - rs)).take (min (RATE - 0) (xs.drop (RATE - rs)).length)
            :: chunksOf RATE
                ((xs.drop (RATE - rs)).drop
                  (min (RATE - 0) (xs.drop (RATE - rs)).length)) := by
      rw [Nat.sub_zero, take_min_length, drop_min_length]
      exact hcons
    rw [hdropchunks]
    have hlrest : (xs.drop (RATE - rs)).length < xs.length := by
      rw [List.length_drop]; omega
    have hside :
        i + 1 + 1 +
          (chunksOf RATE ((xs.drop (RATE - rs)).drop
            (min (RATE - 0) (xs.drop (RATE - rs)).length))).length = total := by
      rw [Nat.sub_zero, drop_min_length]
      omega
    rw [IH (xs.drop (RATE - rs)).length hlrest (xs.drop (RATE - rs)) rfl 0
      (permute RATE CAPACITY P (addChunkSp rs (xs.take (RATE - rs)) sp))
      (i + 1) total hR hrest hside]
    exact (absorbFold_split RATE CAPACITY P hR xs rs sp hrs hcase).symm

/-- `absorb_internal` computes the one-element fold (for a non-empty input
and an in-range starting offset, as guaranteed by its caller). -/
theorem absorb_internal_eq_fold (RATE CAPACITY : ℕ) (P : PoseidonParameters F)
    (hR : 0 < RATE) (rs : ℕ) (hrs : rs < RATE) (xs : List F) (hxs : xs ≠ [])
    (sp : PoseidonSponge F) :
    absorb_internal RATE CAPACITY P rs xs sp
      = absorbFold RATE CAPACITY P xs { sp with mode := .Absorbing rs } := by
  cases xs with
  | nil => exact absurd rfl hxs
  | cons y ys =>
    have hside : 0 + 1 + (chunksOf RATE ((y :: ys).drop (min (RATE - rs) (y :: ys).length))).length
        = 1 + ((y :: ys).length - min (RATE - rs) (y :: ys).length) / RATE
          + (if ((y :: ys).length - min (RATE - rs) (y :: ys).length) % RATE ≠ 0
              then 1 else 0) := by
      rw [chunksOf_length hR, List.length_drop]
      ring
    calc absorb_internal RATE CAPACITY P rs (y :: ys) sp
        = absorbLoop RATE CAPACITY P
            (1 + ((y :: ys).length - min (RATE - rs) (y :: ys).length) / RATE
              + (if ((y :: ys).length - min (RATE - rs) (y :: ys).length) % RATE ≠ 0
                  then 1 else 0)) 0 rs
            ((y :: ys).take (min (RATE - rs) (y :: ys).length)
              :: chunksOf RATE ((y :: ys).drop (min (RATE - rs) (y :: ys).length))) sp := by
          simp only [absorb_internal, List.isEmpty_cons, Bool.false_eq_true, if_false]
      _ = absorbFold RATE CAPACITY P (y :: ys) { sp with mode := .Absorbing rs } :=
          absorbLoop_eq_fold RATE CAPACITY P hR (y :: ys) rs sp 0 _ hrs
            (List.cons_ne_nil y ys) hside

/-- `absorb` computes the one-element fold, for any sponge whose mode
offset is in range. -/
theorem absorb_eq_fold (RATE CAPACITY : ℕ) (P : PoseidonParameters F)
    (hR : 0 < RATE) (sp : PoseidonSponge F) (hmode : sp.mode.offsetOf ≤ RATE)
    (xs : List F) :
    absorb RATE CAPACITY P xs sp = absorbFold RATE CAPACITY P xs sp := by
  cases xs with
  | nil => simp [absorb, absorbFold_nil]
  | cons y ys =>
    obtain ⟨s, m, pc⟩ := sp
    cases m with
    | Absorbing i =>
      by_cases hi : i = RATE
      · rw [hi]
        simp only [absorb, List.isEmpty_cons, Bool.false_eq_true, if_false, if_pos rfl]
        rw [absorb_internal_eq_fold RATE CAPACITY P hR 0 hR (y :: ys)
          (List.cons_ne_nil y ys) _]
        rw [absorbFold_absorbing_rate RATE CAPACITY P hR s pc (y :: ys)
          (List.cons_ne_nil y ys)]
        simp [permute]
      · have hlt : i < RATE :=
          lt_of_le_of_ne (by simpa [DuplexSpongeMode.offsetOf] using hmode) hi
        simp only [absorb, List.isEmpty_cons, Bool.false_eq_true, if_false, if_neg hi]
        rw [absorb_internal_eq_fold RATE CAPACITY P hR i hlt (y :: ys)
          (List.cons_ne_nil y ys)]
    | Squeezing k =>
      simp only [absorb, List.isEmpty_cons, Bool.false_eq_true, if_false]
      rw [absorb_internal_eq_fold RATE CAPACITY P hR 0 hR (y :: ys)
        (List.cons_ne_nil y ys) _]
      rw [absorbFold_squeezing RATE CAPACITY P hR s k pc (y :: ys)
        (List.cons_ne_nil y ys)]
      simp [permute]

/-- The spec's chunk-consumption recursion also computes the one-element
fold. -/
theorem specConsume_eq_fold (RATE CAPACITY : ℕ) (P : PoseidonParameters F)
    (hR : 0 < RATE) :
    ∀ (xs : List F) (rs : ℕ) (sp : PoseidonSponge F), rs < RATE → xs ≠ [] →
      specConsume RATE CAPACITY P rs xs sp
        = absorbFold RATE CAPACITY P xs { sp with mode := .Absorbing rs } := by
  intro xs
  induction' hL : xs.length using Nat.strongRecOn with L IH generalizing xs
  intro rs sp hrs hxs
  subst hL
  rw [specConsume]
  rw [dif_neg (show ¬ RATE - rs = 0 by omega)]
  rcases le_or_lt xs.length (RATE - rs) with hcase | hcase
  · rw [dif_pos hcase]
    exact (absorbFold_chunk RATE CAPACITY P xs rs sp (by omega)).symm
  · rw [dif_neg (not_le.mpr hcase)]
    have hrest : xs.drop (RATE - rs) ≠ [] := by
      have : (xs.drop (RATE - rs)).length ≠ 0 := by rw [List.length_drop]; omega
      exact fun h => this (by rw [h]; rfl)
    rw [IH (xs.drop (RATE - rs)).length (by rw [List.length_drop]; omega)
      (xs.drop (RATE - rs)) rfl 0
      (permute RATE CAPACITY P (addChunkSp rs (xs.take (RATE - rs)) sp)) hR hrest]
    exact (absorbFold_split RATE CAPACITY P hR xs rs sp hrs hcase).symm

/-- `absorb1` keeps the mode offset within `[0, RATE]`. -/
theorem absorb1_offsetOf_le (RATE CAPACITY : ℕ) (P : PoseidonParameters F)
    (hR : 0 < RATE) (sp : PoseidonSponge F) (x : F)
    (h : sp.mode.offsetOf ≤ RATE) :
    (absorb1 RATE CAPACITY P sp x).mode.offsetOf ≤ RATE := by
  obtain ⟨s, m, pc⟩ := sp
  cases m with
  | Absorbing o =>
    by_cases ho : o = RATE
    · simp [absorb1, ho, DuplexSpongeMode.offsetOf, addChunkSp, permute]
      omega
    · simp [DuplexSpongeMode.offsetOf] at h
      simp [absorb1, ho, DuplexSpongeMode.offsetOf, addChunkSp]
      omega
  | Squeezing k =>
    simp [absorb1, DuplexSpongeMode.offsetOf, addChunkSp, permute]
    omega

/-- `absorb` keeps the mode offset within `[0, RATE]`. -/
theorem absorb_offsetOf_le (RATE CAPACITY : ℕ) (P : PoseidonParameters F)
    (hR : 0 < RATE) (sp : PoseidonSponge F) (xs : List F)
    (h : sp.mode.offsetOf ≤ RATE) :
    (absorb RATE CAPACITY P xs sp).mode.offsetOf ≤ RATE := by
  rw [absorb_eq_fold RATE CAPACITY P hR sp h xs]
  exact foldl_inv (fun t => t.mode.offsetOf ≤ RATE) (absorb1 RATE CAPACITY P)
    (fun t b ht => absorb1_offsetOf_le RATE CAPACITY P hR t b ht) xs sp h

/-!
## Squeeze side: well-formedness and the one-element fold
-/

/-- Well-formed sponge: the two state lists have their declared widths. -/
def SpongeWF (RATE CAPACITY : ℕ) (sp : PoseidonSponge F) : Prop :=
  sp.state.capacity_state.length = CAPACITY ∧ sp.state.rate_state.length = RATE

theorem apply_s_box_length (P : PoseidonParameters F) (l : List F) (b : Bool) :
    (apply_s_box P l b).length = l.length := by
  cases b with
  | false => cases l <;> simp [apply_s_box]
  | true => simp [apply_s_box]

theorem roundFn_length (RATE CAPACITY : ℕ) (P : PoseidonParameters F)
    (l : List F) (i : ℕ) :
    (roundFn RATE CAPACITY P l i).length = CAPACITY + RATE := by
  simp [roundFn, apply_mds]

theorem permuteState_wf (RATE CAPACITY : ℕ) (P : PoseidonParameters F)
    (s : State F) (hc : s.capacity_state.length = CAPACITY)
    (hr : s.rate_state.length = RATE) :
    (permuteState RATE CAPACITY P s).capacity_state.length = CAPACITY ∧
      (permuteState RATE CAPACITY P s).rate_state.length = RATE := by
  have hlen : ((List.range (P.partial_rounds + P.full_rounds)).foldl
      (roundFn RATE CAPACITY P) (s.capacity_state ++ s.rate_state)).length
      = CAPACITY + RATE := by
    apply foldl_inv (fun l : List F => l.length = CAPACITY + RATE)
    · intro x b _
      exact roundFn_length RATE CAPACITY P x b
    · simp [hc, hr]
  constructor
  · simp [permuteState, List.length_take, hlen]
  · simp [permuteState, List.length_drop, hlen]

theorem permute_wf (RATE CAPACITY : ℕ) (P : PoseidonParameters F)
    (sp : PoseidonSponge F) (h : SpongeWF RATE CAPACITY sp) :
    SpongeWF RATE CAPACITY (permute RATE CAPACITY P sp) := by
  obtain ⟨hc, hr⟩ := h
  have := permuteState_wf RATE CAPACITY P sp.state hc hr
  exact ⟨by simp [permute, this.1], by simp [permute, this.2]⟩

theorem addChunkSp_wf (RATE CAPACITY : ℕ) (rs : ℕ) (c : List F)
    (sp : PoseidonSponge F) (h : SpongeWF RATE CAPACITY sp) :
    SpongeWF RATE CAPACITY (addChunkSp rs c sp) := by
  obtain ⟨hc, hr⟩ := h
  exact ⟨by simp [addChunkSp, hc], by simp [addChunkSp, rateAdd_length, hr]⟩

theorem absorb1_wf (RATE CAPACITY : ℕ) (P : PoseidonParameters F)
    (sp : PoseidonSponge F) (x : F) (h : SpongeWF RATE CAPACITY sp) :
    SpongeWF RATE CAPACITY (absorb1 RATE CAPACITY P sp x) := by
  obtain ⟨s, m, pc⟩ := sp
  cases m with
  | Absorbing o =>
    by_cases ho : o = RATE
    · simp only [absorb1, ho, if_pos rfl]
      exact addChunkSp_wf RATE CAPACITY 0 [x] _
        (permute_wf RATE CAPACITY P _ h)
    · simp only [absorb1, if_neg ho]
      exact addChunkSp_wf RATE CAPACITY o [x] _ h
  | Squeezing k =>
    simp only [absorb1]
    exact addChunkSp_wf RATE CAPACITY 0 [x] _ (permute_wf RATE CAPACITY P _ h)

theorem squeeze1_wf (RATE CAPACITY : ℕ) (P : PoseidonParameters F)
    (sp : PoseidonSponge F) (h : SpongeWF RATE CAPACITY sp) :
    SpongeWF RATE CAPACITY (squeeze1 RATE CAPACITY P sp).2 := by
  obtain ⟨s, m, pc⟩ := sp
  cases m with
  | Absorbing o =>
    simp only [squeeze1]
    exact permute_wf RATE CAPACITY P _ h
  | Squeezing o =>
    by_cases ho : o = RATE
    · simp only [squeeze1, ho, if_pos rfl]
      exact permute_wf RATE CAPACITY P _ h
    · simp only [squeeze1, if_neg ho]
      exact h

theorem squeeze1_offsetOf_le (RATE CAPACITY : ℕ) (P : PoseidonParameters F)
    (hR : 0 < RATE) (sp : PoseidonSponge F) (h : sp.mode.offsetOf ≤ RATE) :
    (squeeze1 RATE CAPACITY P sp).2.mode.offsetOf ≤ RATE := by
  obtain ⟨s, m, pc⟩ := sp
  cases m with
  | Absorbing o =>
    simp [squeeze1, DuplexSpongeMode.offsetOf]
    omega
  | Squeezing o =>
    by_cases ho : o = RATE
    · simp [squeeze1, ho, DuplexSpongeMode.offsetOf]
      omega
    · simp [DuplexSpongeMode.offsetOf] at h
      simp [squeeze1, ho, DuplexSpongeMode.offsetOf]
      omega

theorem squeezeN_wf (RATE CAPACITY : ℕ) (P : PoseidonParameters F) :
    ∀ (n : ℕ) (sp : PoseidonSponge F), SpongeWF RATE CAPACITY sp →
      SpongeWF RATE CAPACITY (squeezeN RATE CAPACITY P n sp).2 := by
  intro n
  induction n with
  | zero => intro sp h; exact h
  | succ n ih =>
    intro sp h
    simp only [squeezeN]
    exact ih _ (squeeze1_wf RATE CAPACITY P sp h)

theorem squeezeN_offsetOf_le (RATE CAPACITY : ℕ) (P : PoseidonParameters F)
    (hR : 0 < RATE) :
    ∀ (n : ℕ) (sp : PoseidonSponge F), sp.mode.offsetOf ≤ RATE →
      (squeezeN RATE CAPACITY P n sp).2.mode.offsetOf ≤ RATE := by
  intro n
  induction n with
  | zero => intro sp h; exact h
  | succ n ih =>
    intro sp h
    simp only [squeezeN]
    exact ih _ (squeeze1_offsetOf_le RATE CAPACITY P hR sp h)

theorem squeezeN_length (RATE CAPACITY : ℕ) (P : PoseidonParameters F) :
    ∀ (n : ℕ) (sp : PoseidonSponge F), (squeezeN RATE CAPACITY P n sp).1.length = n := by
  intro n
  induction n with
  | zero => intro sp; rfl
  | succ n ih => intro sp; simp only [squeezeN, List.length_cons, ih]

/-- Reading a chunk that fits in the rate region from offset `rs` copies
`(rate_state.drop rs).take csize` and advances the offset, with no
permutation and no state change. -/
theorem squeezeN_chunk (RATE CAPACITY : ℕ) (P : PoseidonParameters F) :
    ∀ (csize rs : ℕ) (sp : PoseidonSponge F), rs + csize ≤ RATE →
      sp.state.rate_state.length = RATE →
      squeezeN RATE CAPACITY P csize { sp with mode := .Squeezing rs }
        = ((sp.state.rate_state.drop rs).take csize,
           { sp with mode := .Squeezing (rs + csize) }) := by
  intro csize
  induction csize with
  | zero =>
    intro rs sp _ _
    simp [squeezeN]
  | succ c ih =>
    intro rs sp hle hlen
    have hrs : rs < RATE := by omega
    have hrs' : rs ≠ RATE := by omega
    simp only [squeezeN]
    have h1 : squeeze1 RATE CAPACITY P { sp with mode := .Squeezing rs }
        = (sp.state.rate_state.getD rs 0, { sp with mode := .Squeezing (rs + 1) }) := by
      simp [squeeze1, hrs']
    rw [h1]
    rw [ih (rs + 1) sp (by omega) hlen]
    have hidx : rs < sp.state.rate_state.length := by omega
    rw [List.getD_eq_getElem sp.state.rate_state 0 hidx]
    rw [List.drop_eq_getElem_cons hidx]
    have : rs + 1 + c = rs + (c + 1) := by omega
    rw [this, List.take_succ_cons]

/-- Entry normalization: from `Absorbing{*}`, the fold permutes on its
first read and switches to squeezing from offset 0. -/
theorem squeezeN_absorbing (RATE CAPACITY : ℕ) (P : PoseidonParameters F)
    (hR : 0 < RATE) (s : State F) (k pc : ℕ) (n : ℕ) (hn : n ≠ 0) :
    squeezeN RATE CAPACITY P n ⟨s, .Absorbing k, pc⟩
      = squeezeN RATE CAPACITY P n
          ⟨permuteState RATE CAPACITY P s, .Squeezing 0, pc + 1⟩ := by
  cases n with
  | zero => exact absurd rfl hn
  | succ n =>
    simp only [squeezeN]
    have hR' : 0 ≠ RATE := by omega
    have h1 : squeeze1 RATE CAPACITY P ⟨s, .Absorbing k, pc⟩
        = squeeze1 RATE CAPACITY P
            ⟨permuteState RATE CAPACITY P s, .Squeezing 0, pc + 1⟩ := by
      simp [squeeze1, hR', permute]
    rw [h1]

/-- Entry normalization: from `Squeezing RATE`, the fold permutes on its
first read and continues from offset 0. -/
theorem squeezeN_squeezing_rate (RATE CAPACITY : ℕ) (P : PoseidonParameters F)
    (hR : 0 < RATE) (s : State F) (pc : ℕ) (n : ℕ) (hn : n ≠ 0) :
    squeezeN RATE CAPACITY P n ⟨s, .Squeezing RATE, pc⟩
      = squeezeN RATE CAPACITY P n
          ⟨permuteState RATE CAPACITY P s, .Squeezing 0, pc + 1⟩ := by
  cases n with
  | zero => exact absurd rfl hn
  | succ n =>
    simp only [squeezeN]
    have hR' : 0 ≠ RATE := by omega
    have h1 : squeeze1 RATE CAPACITY P ⟨s, .Squeezing RATE, pc⟩
        = squeeze1 RATE CAPACITY P
            ⟨permuteState RATE CAPACITY P s, .Squeezing 0, pc + 1⟩ := by
      simp [squeeze1, hR', permute]
    rw [h1]

/-- Squeezing `a + b` elements is squeezing `a` then `b`, outputs
concatenated. -/
theorem squeezeN_add (RATE CAPACITY : ℕ) (P : PoseidonParameters F) :
    ∀ (a b : ℕ) (sp : PoseidonSponge F),
      squeezeN RATE CAPACITY P (a + b) sp
        = ((squeezeN RATE CAPACITY P a sp).1
            ++ (squeezeN RATE CAPACITY P b (squeezeN RATE CAPACITY P a sp).2).1,
           (squeezeN RATE CAPACITY P b (squeezeN RATE CAPACITY P a sp).2).2) := by
  intro a
  induction a with
  | zero =>
    intro b sp
    simp [squeezeN]
  | succ a ih =>
    intro b sp
    have : a + 1 + b = (a + b) + 1 := by omega
    rw [this]
    simp only [squeezeN]
    rw [ih b (squeeze1 RATE CAPACITY P sp).2]
    simp

/-- Splitting a squeeze at the rate boundary: the first `RATE - rs` reads
drain the rate region, the rest follows one permutation from offset 0. -/
theorem squeezeN_split (RATE CAPACITY : ℕ) (P : PoseidonParameters F)
    (hR : 0 < RATE) (n rs : ℕ) (sp : PoseidonSponge F)
    (hrs : rs < RATE) (hlong : RATE - rs < n)
    (hlen : sp.state.rate_state.length = RATE) :
    squeezeN RATE CAPACITY P n { sp with mode := .Squeezing rs }
      = ((sp.state.rate_state.drop rs).take (RATE - rs)
          ++ (squeezeN RATE CAPACITY P (n - (RATE - rs))
              { permute RATE CAPACITY P sp with mode := .Squeezing 0 }).1,
         (squeezeN RATE CAPACITY P (n - (RATE - rs))
              { permute RATE CAPACITY P sp with mode := .Squeezing 0 }).2) := by
  have hsplit : n = (RATE - rs) + (n - (RATE - rs)) := by omega
  conv_lhs => rw [hsplit]
  rw [squeezeN_add]
  rw [squeezeN_chunk RATE CAPACITY P (RATE - rs) rs sp (by omega) hlen]
  have hfill : rs + (RATE - rs) = RATE := by omega
  rw [hfill]
  rw [show ({ sp with mode := .Squeezing RATE } : PoseidonSponge F)
      = ⟨sp.state, .Squeezing RATE, sp.permCount⟩ from rfl]
  rw [squeezeN_squeezing_rate RATE CAPACITY P hR sp.state sp.permCount _ (by omega)]
  simp [permute]

/-- The chunked squeeze loop of the source computes the one-element
fold. -/
theorem squeezeLoop_eq_fold (RATE CAPACITY : ℕ) (P : PoseidonParameters F)
    (hR : 0 < RATE) :
    ∀ (n rs : ℕ) (sp : PoseidonSponge F) (i total : ℕ),
      rs < RATE → n ≠ 0 → SpongeWF RATE CAPACITY sp →
      i + 1 + (chunkSizesOf RATE (n - min (RATE - rs) n)).length = total →
      squeezeLoop RATE CAPACITY P total i rs
        (min (RATE - rs) n :: chunkSizesOf RATE (n - min (RATE - rs) n)) sp
        = squeezeN RATE CAPACITY P n { sp with mode := .Squeezing rs } := by
  intro n
  induction' n using Nat.strongRecOn with n IH
  intro rs sp i total hrs hn hwf htotal
  rcases le_or_lt n (RATE - rs) with hcase | hcase
  · have hmin : min (RATE - rs) n = n := min_eq_right hcase
    rw [hmin] at htotal ⊢
    have h0 : n - n = 0 := by omega
    rw [h0] at htotal ⊢
    have hcs : chunkSizesOf RATE 0 = [] := by rw [chunkSizesOf]; simp
    rw [hcs] at htotal ⊢
    simp only [List.length_nil, Nat.add_zero] at htotal
    simp only [squeezeLoop]
    rw [if_pos (by omega : i = total - 1)]
    exact (squeezeN_chunk RATE CAPACITY P n rs sp (by omega) hwf.2).symm
  · have hmin : min (RATE - rs) n = RATE - rs := min_eq_left (le_of_lt hcase)
    rw [hmin] at htotal ⊢
    have hrem : n - (RATE - rs) ≠ 0 := by omega
    have hcs := chunkSizesOf_eq (show RATE ≠ 0 by omega) hrem
    have htotal2 :
        i + 1 + ((chunkSizesOf RATE (n - (RATE - rs) - RATE)).length + 1) = total := by
      rw [hcs] at htotal
      simpa using htotal
    simp only [squeezeLoop]
    rw [if_neg (by omega : ¬ i = total - 1)]
    have harg : (n - (RATE - rs)) - min RATE (n - (RATE - rs))
        = n - (RATE - rs) - RATE := by
      rcases le_total RATE (n - (RATE - rs)) with h | h
      · rw [min_eq_left h]
      · rw [min_eq_right h]
        omega
    have hshape : chunkSizesOf RATE (n - (RATE - rs))
        = min (RATE - 0) (n - (RATE - rs))
          :: chunkSizesOf RATE
              ((n - (RATE - rs)) - min (RATE - 0) (n - (RATE - rs))) := by
      rw [Nat.sub_zero, harg]
      exact hcs
    rw [hshape]
    have hside : i + 1 + 1 +
        (chunkSizesOf RATE
          ((n - (RATE - rs)) - min (RATE - 0) (n - (RATE - rs)))).length = total := by
      rw [Nat.sub_zero, harg]
      omega
    rw [IH (n - (RATE - rs)) (by omega) 0 (permute RATE CAPACITY P sp) (i + 1) total hR
      hrem (permute_wf RATE CAPACITY P sp hwf) hside]
    exact (squeezeN_split RATE CAPACITY P hR n rs sp hrs hcase hwf.2).symm

/-- `squeeze_internal` computes the one-element fold (non-zero output
length, in-range starting offset, well-formed state). -/
theorem squeeze_internal_eq_fold (RATE CAPACITY : ℕ) (P : PoseidonParameters F)
    (hR : 0 < RATE) (rs : ℕ) (hrs : rs < RATE) (n : ℕ) (hn : n ≠ 0)
    (sp : PoseidonSponge F) (hwf : SpongeWF RATE CAPACITY sp) :
    squeeze_internal RATE CAPACITY P rs n sp
      = squeezeN RATE CAPACITY P n { sp with mode := .Squeezing rs } := by
  have hside : 0 + 1 + (chunkSizesOf RATE (n - min (RATE - rs) n)).length
      = 1 + (n - min (RATE - rs) n) / RATE
        + (if (n - min (RATE - rs) n) % RATE ≠ 0 then 1 else 0) := by
    rw [chunkSizesOf_length hR]
    ring
  calc squeeze_internal RATE CAPACITY P rs n sp
      = squeezeLoop RATE CAPACITY P
          (1 + (n - min (RATE - rs) n) / RATE
            + (if (n - min (RATE - rs) n) % RATE ≠ 0 then 1 else 0)) 0 rs
          (min (RATE - rs) n :: chunkSizesOf RATE (n - min (RATE - rs) n)) sp := by
        simp only [squeeze_internal, if_neg hn]
    _ = squeezeN RATE CAPACITY P n { sp with mode := .Squeezing rs } :=
        squeezeLoop_eq_fold RATE CAPACITY P hR n rs sp 0 _ hrs hn hwf hside

/-- `squeeze_field_elements` computes the one-element fold, for any
well-formed sponge whose mode offset is in range. -/
theorem squeeze_eq_fold (RATE CAPACITY : ℕ) (P : PoseidonParameters F)
    (hR : 0 < RATE) (sp : PoseidonSponge F) (hmode : sp.mode.offsetOf ≤ RATE)
    (hwf : SpongeWF RATE CAPACITY sp) (n : ℕ) :
    squeeze_field_elements RATE CAPACITY P n sp = squeezeN RATE CAPACITY P n sp := by
  by_cases hn : n = 0
  · subst hn
    simp [squeeze_field_elements, squeezeN]
  · obtain ⟨s, m, pc⟩ := sp
    cases m with
    | Absorbing k =>
      simp only [squeeze_field_elements, if_neg hn]
      rw [squeeze_internal_eq_fold RATE CAPACITY P hR 0 hR n hn _
        (permute_wf RATE CAPACITY P _ hwf)]
      rw [squeezeN_absorbing RATE CAPACITY P hR s k pc n hn]
      simp [permute]
    | Squeezing o =>
      by_cases ho : o = RATE
      · rw [ho]
        simp only [squeeze_field_elements, if_neg hn, eq_self_iff_true, if_true]
        rw [squeeze_internal_eq_fold RATE CAPACITY P hR 0 hR n hn _
          (permute_wf RATE CAPACITY P _ (by rw [ho] at hwf; exact hwf))]
        rw [squeezeN_squeezing_rate RATE CAPACITY P hR s pc n hn]
        simp [permute]
      · have hlt : o < RATE :=
          lt_of_le_of_ne (by simpa [DuplexSpongeMode.offsetOf] using hmode) ho
        simp only [squeeze_field_elements, if_neg hn, if_neg ho]
        rw [squeeze_internal_eq_fold RATE CAPACITY P hR o hlt n hn _ hwf]

/-- The spec's chunk-production recursion also computes the one-element
fold. -/
theorem specProduce_eq_fold (RATE CAPACITY : ℕ) (P : PoseidonParameters F)
    (hR : 0 < RATE) :
    ∀ (n rs : ℕ) (sp : PoseidonSponge F), rs < RATE → n ≠ 0 →
      SpongeWF RATE CAPACITY sp →
      specProduce RATE CAPACITY P rs n sp
        = squeezeN RATE CAPACITY P n { sp with mode := .Squeezing rs } := by
  intro n
  induction' n using Nat.strongRecOn with n IH
  intro rs sp hrs hn hwf
  rw [specProduce]
  rw [dif_neg (show ¬ RATE - rs = 0 by omega)]
  rcases le_or_lt n (RATE - rs) with hcase | hcase
  · rw [dif_pos hcase]
    exact (squeezeN_chunk RATE CAPACITY P n rs sp (by omega) hwf.2).symm
  · rw [dif_neg (not_le.mpr hcase)]
    have hrem : n - (RATE - rs) ≠ 0 := by omega
    simp only
    rw [IH (n - (RATE - rs)) (by omega) 0 (permute RATE CAPACITY P sp) hR hrem
      (permute_wf RATE CAPACITY P sp hwf)]
    exact (squeezeN_split RATE CAPACITY P hR n rs sp hrs hcase hwf.2).symm

/-!
## The permutation matches the spec's round description
-/

theorem addInto_eq_zipWith :
    ∀ (xs ys : List F), ys.length = xs.length →
      addInto xs ys = List.zipWith (fun a b => a + b) xs ys := by
  intro xs
  induction xs with
  | nil => intro ys h; cases ys <;> simp_all [addInto]
  | cons x xs ih =>
    intro ys h
    cases ys with
    | nil => simp at h
    | cons y ys =>
      simp only [List.length_cons] at h
      simp [addInto, ih ys (by omega)]

theorem apply_s_box_eq_specSBox (P : PoseidonParameters F) (l : List F) (i : ℕ) :
    apply_s_box P l
        (! decide (P.full_rounds / 2 ≤ i ∧ i < P.full_rounds / 2 + P.partial_rounds))
      = specSBox P l i := by
  by_cases h : P.full_rounds / 2 ≤ i ∧ i < P.full_rounds / 2 + P.partial_rounds
  · rw [decide_eq_true h]
    simp only [Bool.not_true]
    unfold specSBox
    rw [if_pos (show specPartialRound P i from h)]
    cases l with
    | nil => rfl
    | cons x xs => simp [apply_s_box, List.getD_cons_zero]
  · rw [decide_eq_false h]
    simp only [Bool.not_false]
    unfold specSBox
    rw [if_neg (show ¬ specPartialRound P i from h)]
    rfl

theorem dotRow_eq_range_sum :
    ∀ (row l : List F), row.length = l.length →
      dotRow row l
        = ((List.range row.length).map (fun j => row.getD j 0 * l.getD j 0)).sum := by
  intro row
  induction row with
  | nil => intro l h; simp [dotRow]
  | cons r row ih =>
    intro l h
    cases l with
    | nil => simp at h
    | cons x l =>
      simp only [List.length_cons] at h
      rw [List.length_cons, List.range_succ_eq_map]
      simp only [List.map_cons, List.map_map, List.sum_cons, List.getD_cons_zero]
      have hcomp : ((fun j => (r :: row).getD j 0 * (x :: l).getD j 0) ∘ Nat.succ)
          = (fun j => row.getD j 0 * l.getD j 0) := by
        funext j
        simp [List.getD_cons_succ]
      rw [hcomp, ← ih l (by omega)]
      simp [dotRow]

theorem apply_ark_eq_specAddRoundKey (P : PoseidonParameters F) (l : List F) (i : ℕ)
    (hrow : (P.ark.getD i []).length = l.length) :
    apply_ark P l i = specAddRoundKey P l i :=
  addInto_eq_zipWith l (P.ark.getD i []) hrow

theorem apply_mds_eq_specLinear (RATE CAPACITY : ℕ) (P : PoseidonParameters F)
    (l : List F) (hlen : l.length = CAPACITY + RATE)
    (hmdslen : P.mds.length = CAPACITY + RATE)
    (hmdsrow : ∀ r ∈ P.mds, r.length = CAPACITY + RATE) :
    apply_mds RATE CAPACITY P l = specLinear RATE CAPACITY P l := by
  unfold apply_mds specLinear
  apply List.map_congr_left
  intro j hj
  rw [List.mem_range] at hj
  have hjm : j < P.mds.length := by omega
  have hrow : (P.mds.getD j []).length = CAPACITY + RATE := by
    have : P.mds.getD j [] = P.mds[j] := List.getD_eq_getElem P.mds [] hjm
    rw [this]
    exact hmdsrow _ (List.getElem_mem hjm)
  rw [dotRow_eq_range_sum (P.mds.getD j []) l (by omega), hrow]

theorem roundFn_eq_spec (RATE CAPACITY : ℕ) (P : PoseidonParameters F)
    (l : List F) (i : ℕ) (hlen : l.length = CAPACITY + RATE)
    (hrow : (P.ark.getD i []).length = CAPACITY + RATE)
    (hmdslen : P.mds.length = CAPACITY + RATE)
    (hmdsrow : ∀ r ∈ P.mds, r.length = CAPACITY + RATE) :
    roundFn RATE CAPACITY P l i
      = specLinear RATE CAPACITY P (specSBox P (specAddRoundKey P l i) i) := by
  simp only [roundFn]
  rw [apply_ark_eq_specAddRoundKey P l i (by omega)]
  rw [apply_s_box_eq_specSBox P _ i]
  apply apply_mds_eq_specLinear RATE CAPACITY P _ _ hmdslen hmdsrow
  have h1 : (specAddRoundKey P l i).length = CAPACITY + RATE := by
    unfold specAddRoundKey
    rw [List.length_zipWith, hrow, hlen, min_self]
  have h2 : (specSBox P (specAddRoundKey P l i) i).length
      = (specAddRoundKey P l i).length := by
    unfold specSBox
    by_cases h : specPartialRound P i <;> simp [h]
  omega

theorem foldl_congr_mem {α β : Type} (Inv : α → Prop) (f g : α → β → α) :
    ∀ (l : List β) (a : α), Inv a →
      (∀ x b, Inv x → b ∈ l → f x b = g x b ∧ Inv (f x b)) →
      l.foldl f a = l.foldl g a := by
  intro l
  induction l with
  | nil => intro a _ _; rfl
  | cons b l ih =>
    intro a ha hstep
    simp only [List.foldl_cons]
    have h1 := hstep a b ha (List.mem_cons_self b l)
    rw [h1.1]
    exact ih (g a b) (h1.1 ▸ h1.2) (fun x c hx hc => hstep x c hx (List.mem_cons_of_mem b hc))

/-!
## The ghost permutation counter never influences state, mode or output
-/

theorem absorbLoop_obs (RATE CAPACITY : ℕ) (P : PoseidonParameters F) (total : ℕ) :
    ∀ (cl : List (List F)) (i rs : ℕ) (s : State F) (m : DuplexSpongeMode) (c1 c2 : ℕ),
      (absorbLoop RATE CAPACITY P total i rs cl ⟨s, m, c1⟩).state
          = (absorbLoop RATE CAPACITY P total i rs cl ⟨s, m, c2⟩).state
        ∧ (absorbLoop RATE CAPACITY P total i rs cl ⟨s, m, c1⟩).mode
          = (absorbLoop RATE CAPACITY P total i rs cl ⟨s, m, c2⟩).mode := by
  intro cl
  induction cl with
  | nil => intro i rs s m c1 c2; exact ⟨rfl, rfl⟩
  | cons c cl ih =>
    intro i rs s m c1 c2
    simp only [absorbLoop]
    split_ifs with h
    · exact ⟨rfl, rfl⟩
    · simpa [addChunkSp, permute] using
        ih (i + 1) 0
          (permuteState RATE CAPACITY P
            { s with rate_state := rateAdd s.rate_state rs c }) m (c1 + 1) (c2 + 1)

theorem absorb_internal_obs (RATE CAPACITY : ℕ) (P : PoseidonParameters F)
    (rs : ℕ) (xs : List F) (s : State F) (m : DuplexSpongeMode) (c1 c2 : ℕ) :
    (absorb_internal RATE CAPACITY P rs xs ⟨s, m, c1⟩).state
        = (absorb_internal RATE CAPACITY P rs xs ⟨s, m, c2⟩).state
      ∧ (absorb_internal RATE CAPACITY P rs xs ⟨s, m, c1⟩).mode
        = (absorb_internal RATE CAPACITY P rs xs ⟨s, m, c2⟩).mode := by
  simp only [absorb_internal]
  by_cases h : xs.isEmpty
  · rw [if_pos h, if_pos h]
    exact ⟨rfl, rfl⟩
  · rw [if_neg h, if_neg h]
    exact absorbLoop_obs RATE CAPACITY P _ _ 0 rs s m c1 c2

theorem absorb_obs (RATE CAPACITY : ℕ) (P : PoseidonParameters F)
    (xs : List F) (s : State F) (m : DuplexSpongeMode) (c1 c2 : ℕ) :
    (absorb RATE CAPACITY P xs ⟨s, m, c1⟩).state
        = (absorb RATE CAPACITY P xs ⟨s, m, c2⟩).state
      ∧ (absorb RATE CAPACITY P xs ⟨s, m, c1⟩).mode
        = (absorb RATE CAPACITY P xs ⟨s, m, c2⟩).mode := by
  simp only [absorb]
  split_ifs with h
  · exact ⟨rfl, rfl⟩
  · cases m with
    | Absorbing i =>
      simp only
      split_ifs with hi
      · simpa [permute] using
          absorb_internal_obs RATE CAPACITY P 0 xs
            (permuteState RATE CAPACITY P s) (.Absorbing i) (c1 + 1) (c2 + 1)
      · exact absorb_internal_obs RATE CAPACITY P i xs s (.Absorbing i) c1 c2
    | Squeezing k =>
      simpa [permute] using
        absorb_internal_obs RATE CAPACITY P 0 xs
          (permuteState RATE CAPACITY P s) (.Squeezing k) (c1 + 1) (c2 + 1)

theorem squeezeLoop_obs (RATE CAPACITY : ℕ) (P : PoseidonParameters F) (total : ℕ) :
    ∀ (cl : List ℕ) (i rs : ℕ) (s : State F) (m : DuplexSpongeMode) (c1 c2 : ℕ),
      (squeezeLoop RATE CAPACITY P total i rs cl ⟨s, m, c1⟩).1
          = (squeezeLoop RATE CAPACITY P total i rs cl ⟨s, m, c2⟩).1
        ∧ (squeezeLoop RATE CAPACITY P total i rs cl ⟨s, m, c1⟩).2.state
          = (squeezeLoop RATE CAPACITY P total i rs cl ⟨s, m, c2⟩).2.state
        ∧ (squeezeLoop RATE CAPACITY P total i rs cl ⟨s, m, c1⟩).2.mode
          = (squeezeLoop RATE CAPACITY P total i rs cl ⟨s, m, c2⟩).2.mode := by
  intro cl
  induction cl with
  | nil => intro i rs s m c1 c2; exact ⟨rfl, rfl, rfl⟩
  | cons c cl ih =>
    intro i rs s m c1 c2
    simp only [squeezeLoop]
    split_ifs with h
    · exact ⟨rfl, rfl, rfl⟩
    · have := ih (i + 1) 0 (permuteState RATE CAPACITY P s) m (c1 + 1) (c2 + 1)
      simp only [permute] at this ⊢
      exact ⟨by rw [this.1], this.2.1, this.2.2⟩

theorem squeeze_internal_obs (RATE CAPACITY : ℕ) (P : PoseidonParameters F)
    (rs n : ℕ) (s : State F) (m : DuplexSpongeMode) (c1 c2 : ℕ) :
    (squeeze_internal RATE CAPACITY P rs n ⟨s, m, c1⟩).1
        = (squeeze_internal RATE CAPACITY P rs n ⟨s, m, c2⟩).1
      ∧ (squeeze_internal RATE CAPACITY P rs n ⟨s, m, c1⟩).2.state
        = (squeeze_internal RATE CAPACITY P rs n ⟨s, m, c2⟩).2.state
      ∧ (squeeze_internal RATE CAPACITY P rs n ⟨s, m, c1⟩).2.mode
        = (squeeze_internal RATE CAPACITY P rs n ⟨s, m, c2⟩).2.mode := by
  simp only [squeeze_internal]
  by_cases h : n = 0
  · rw [if_pos h, if_pos h]
    exact ⟨rfl, rfl, rfl⟩
  · rw [if_neg h, if_neg h]
    exact squeezeLoop_obs RATE CAPACITY P _ _ 0 rs s m c1 c2

theorem squeeze_obs (RATE CAPACITY : ℕ) (P : PoseidonParameters F)
    (n : ℕ) (s : State F) (m : DuplexSpongeMode) (c1 c2 : ℕ) :
    (squeeze_field_elements RATE CAPACITY P n ⟨s, m, c1⟩).1
        = (squeeze_field_elements RATE CAPACITY P n ⟨s, m, c2⟩).1
      ∧ (squeeze_field_elements RATE CAPACITY P n ⟨s, m, c1⟩).2.state
        = (squeeze_field_elements RATE CAPACITY P n ⟨s, m, c2⟩).2.state
      ∧ (squeeze_field_elements RATE CAPACITY P n ⟨s, m, c1⟩).2.mode
        = (squeeze_field_elements RATE CAPACITY P n ⟨s, m, c2⟩).2.mode := by
  simp only [squeeze_field_elements]
  split_ifs with h
  · exact ⟨rfl, rfl, rfl⟩
  · cases m with
    | Absorbing i =>
      simpa [permute] using
        squeeze_internal_obs RATE CAPACITY P 0 n
          (permuteState RATE CAPACITY P s) (.Absorbing i) (c1 + 1) (c2 + 1)
    | Squeezing k =>
      simp only
      split_ifs with hk
      · simpa [permute] using
          squeeze_internal_obs RATE CAPACITY P 0 n
            (permuteState RATE CAPACITY P s) (.Squeezing k) (c1 + 1) (c2 + 1)
      · exact squeeze_internal_obs RATE CAPACITY P k n s (.Squeezing k) c1 c2

theorem runCalls_obs (RATE CAPACITY : ℕ) (P : PoseidonParameters F) :
    ∀ (calls : List (SpongeCall F)) (sp1 sp2 : PoseidonSponge F),
      sp1.state = sp2.state → sp1.mode = sp2.mode →
      (runCalls RATE CAPACITY P calls sp1).1.state
          = (runCalls RATE CAPACITY P calls sp2).1.state
        ∧ (runCalls RATE CAPACITY P calls sp1).1.mode
          = (runCalls RATE CAPACITY P calls sp2).1.mode
        ∧ (runCalls RATE CAPACITY P calls sp1).2
          = (runCalls RATE CAPACITY P calls sp2).2 := by
  intro calls
  induction calls with
  | nil => intro sp1 sp2 hs hm; exact ⟨hs, hm, rfl⟩
  | cons c calls ih =>
    intro sp1 sp2 hs hm
    obtain ⟨s1, m1, c1⟩ := sp1
    obtain ⟨s2, m2, c2⟩ := sp2
    simp only at hs hm
    subst hs
    subst hm
    cases c with
    | absorbCall xs =>
      simp only [runCalls]
      have h := absorb_obs RATE CAPACITY P xs s1 m1 c1 c2
      exact ih _ _ h.1 h.2
    | squeezeCall n =>
      simp only [runCalls]
      have h := squeeze_obs RATE CAPACITY P n s1 m1 c1 c2
      have hrec := ih (squeeze_field_elements RATE CAPACITY P n ⟨s1, m1, c1⟩).2
        (squeeze_field_elements RATE CAPACITY P n ⟨s1, m1, c2⟩).2 h.2.1 h.2.2
      exact ⟨hrec.1, hrec.2.1, by rw [h.1, hrec.2.2]⟩

/-!
## Top-level invariant preservation and reachability
-/

theorem absorb_wf (RATE CAPACITY : ℕ) (P : PoseidonParameters F)
    (hR : 0 < RATE) (sp : PoseidonSponge F) (hmode : sp.mode.offsetOf ≤ RATE)
    (hwf : SpongeWF RATE CAPACITY sp) (xs : List F) :
    SpongeWF RATE CAPACITY (absorb RATE CAPACITY P xs sp) := by
  rw [absorb_eq_fold RATE CAPACITY P hR sp hmode xs]
  exact foldl_inv (SpongeWF RATE CAPACITY) (absorb1 RATE CAPACITY P)
    (fun t b ht => absorb1_wf RATE CAPACITY P t b ht) xs sp hwf

theorem squeeze_wf (RATE CAPACITY : ℕ) (P : PoseidonParameters F)
    (hR : 0 < RATE) (sp : PoseidonSponge F) (hmode : sp.mode.offsetOf ≤ RATE)
    (hwf : SpongeWF RATE CAPACITY sp) (n : ℕ) :
    SpongeWF RATE CAPACITY (squeeze_field_elements RATE CAPACITY P n sp).2 := by
  rw [squeeze_eq_fold RATE CAPACITY P hR sp hmode hwf n]
  exact squeezeN_wf RATE CAPACITY P n sp hwf

theorem squeeze_offsetOf_le (RATE CAPACITY : ℕ) (P : PoseidonParameters F)
    (hR : 0 < RATE) (sp : PoseidonSponge F) (hmode : sp.mode.offsetOf ≤ RATE)
    (hwf : SpongeWF RATE CAPACITY sp) (n : ℕ) :
    (squeeze_field_elements RATE CAPACITY P n sp).2.mode.offsetOf ≤ RATE := by
  rw [squeeze_eq_fold RATE CAPACITY P hR sp hmode hwf n]
  exact squeezeN_offsetOf_le RATE CAPACITY P hR n sp hmode

theorem with_parameters_mode (RATE CAPACITY : ℕ) :
    (with_parameters RATE CAPACITY : PoseidonSponge F).mode = .Absorbing 0 := rfl

theorem with_parameters_wf (RATE CAPACITY : ℕ) :
    SpongeWF RATE CAPACITY (with_parameters RATE CAPACITY : PoseidonSponge F) :=
  ⟨List.length_replicate CAPACITY 0, List.length_replicate RATE 0⟩

/-- Both invariants hold after any sequence of calls from any sponge
satisfying them. -/
theorem runCalls_inv (RATE CAPACITY : ℕ) (P : PoseidonParameters F)
    (hR : 0 < RATE) :
    ∀ (calls : List (SpongeCall F)) (sp : PoseidonSponge F),
      sp.mode.offsetOf ≤ RATE → SpongeWF RATE CAPACITY sp →
      (runCalls RATE CAPACITY P calls sp).1.mode.offsetOf ≤ RATE ∧
        SpongeWF RATE CAPACITY (runCalls RATE CAPACITY P calls sp).1 := by
  intro calls
  induction calls with
  | nil => intro sp h1 h2; exact ⟨h1, h2⟩
  | cons c calls ih =>
    intro sp h1 h2
    cases c with
    | absorbCall xs =>
      simp only [runCalls]
      exact ih _ (absorb_offsetOf_le RATE CAPACITY P hR sp xs h1)
        (absorb_wf RATE CAPACITY P hR sp h1 h2 xs)
    | squeezeCall n =>
      simp only [runCalls]
      exact ih _ (squeeze_offsetOf_le RATE CAPACITY P hR sp h1 h2 n)
        (squeeze_wf RATE CAPACITY P hR sp h1 h2 n)

/-!
## Spec-level absorb and squeeze agree with the one-element fold
-/

theorem specAbsorb_eq_fold (RATE CAPACITY : ℕ) (P : PoseidonParameters F)
    (hR : 0 < RATE) (sp : PoseidonSponge F) (hmode : sp.mode.offsetOf ≤ RATE)
    (input : List F) (hne : input ≠ []) :
    specAbsorb RATE CAPACITY P input sp = absorbFold RATE CAPACITY P input sp := by
  cases input with
  | nil => exact absurd rfl hne
  | cons y ys =>
    obtain ⟨s, m, pc⟩ := sp
    cases m with
    | Absorbing i =>
      by_cases hi : i = RATE
      · rw [hi]
        simp only [specAbsorb, List.isEmpty_cons, Bool.false_eq_true, if_false, if_pos rfl]
        rw [specConsume_eq_fold RATE CAPACITY P hR (y :: ys) 0 _ hR
          (List.cons_ne_nil y ys)]
        rw [absorbFold_absorbing_rate RATE CAPACITY P hR s pc (y :: ys)
          (List.cons_ne_nil y ys)]
        simp [permute]
      · have hlt : i < RATE :=
          lt_of_le_of_ne (by simpa [DuplexSpongeMode.offsetOf] using hmode) hi
        simp only [specAbsorb, List.isEmpty_cons, Bool.false_eq_true, if_false, if_neg hi]
        rw [specConsume_eq_fold RATE CAPACITY P hR (y :: ys) i _ hlt
          (List.cons_ne_nil y ys)]
    | Squeezing k =>
      simp only [specAbsorb, List.isEmpty_cons, Bool.false_eq_true, if_false]
      rw [specConsume_eq_fold RATE CAPACITY P hR (y :: ys) 0 _ hR
        (List.cons_ne_nil y ys)]
      rw [absorbFold_squeezing RATE CAPACITY P hR s k pc (y :: ys)
        (List.cons_ne_nil y ys)]
      simp [permute]

theorem specSqueeze_eq_fold (RATE CAPACITY : ℕ) (P : PoseidonParameters F)
    (hR : 0 < RATE) (sp : PoseidonSponge F) (hmode : sp.mode.offsetOf ≤ RATE)
    (hwf : SpongeWF RATE CAPACITY sp) (n : ℕ) :
    specSqueeze RATE CAPACITY P n sp = squeezeN RATE CAPACITY P n sp := by
  by_cases hn : n = 0
  · subst hn
    simp [specSqueeze, squeezeN]
  · obtain ⟨s, m, pc⟩ := sp
    cases m with
    | Absorbing k =>
      simp only [specSqueeze, if_neg hn]
      rw [specProduce_eq_fold RATE CAPACITY P hR n 0 _ hR hn
        (permute_wf RATE CAPACITY P _ hwf)]
      rw [squeezeN_absorbing RATE CAPACITY P hR s k pc n hn]
      simp [permute]
    | Squeezing o =>
      by_cases ho : o = RATE
      · rw [ho]
        simp only [specSqueeze, if_neg hn, eq_self_iff_true, if_true]
        rw [specProduce_eq_fold RATE CAPACITY P hR n 0 _ hR hn
          (permute_wf RATE CAPACITY P _ (by rw [ho] at hwf; exact hwf))]
        rw [squeezeN_squeezing_rate RATE CAPACITY P hR s pc n hn]
        simp [permute]
      · have hlt : o < RATE :=
          lt_of_le_of_ne (by simpa [DuplexSpongeMode.offsetOf] using hmode) ho
        simp only [specSqueeze, if_neg hn, if_neg ho]
        rw [specProduce_eq_fold RATE CAPACITY P hR n o _ hlt hn hwf]

/-!
## Claim theorems
-/

/-- C1: the Permutation applies `full_rounds + partial_rounds` sequential
rounds; each round adds round constants, applies the S-box (to every
element in a full round, only to element 0 in a partial round, where round
`i` is partial iff `full_rounds/2 ≤ i < full_rounds/2 + partial_rounds`),
then multiplies by the mixing matrix (`new[j] = Σ_k matrix[j][k] *
state[k]`); and with `full_rounds = 8`, `partial_rounds = 31` the partial
block is exactly `[4, 35)`. -/
theorem permutation_matches_round_spec (RATE CAPACITY : ℕ)
    (P : PoseidonParameters F) (sp : PoseidonSponge F)
    (harklen : P.ark.length = P.full_rounds + P.partial_rounds)
    (harkrow : ∀ r ∈ P.ark, r.length = CAPACITY + RATE)
    (hmdslen : P.mds.length = CAPACITY + RATE)
    (hmdsrow : ∀ r ∈ P.mds, r.length = CAPACITY + RATE)
    (hwf : SpongeWF RATE CAPACITY sp) :
    ((permute RATE CAPACITY P sp).state.capacity_state
        ++ (permute RATE CAPACITY P sp).state.rate_state
      = specPermute RATE CAPACITY P
          (sp.state.capacity_state ++ sp.state.rate_state))
    ∧ (P.full_rounds = 8 → P.partial_rounds = 31 →
        ∀ i, i < 39 → (specPartialRound P i ↔ 4 ≤ i ∧ i < 35)) := by
  constructor
  · have hstate : (permute RATE CAPACITY P sp).state.capacity_state
        ++ (permute RATE CAPACITY P sp).state.rate_state
        = (List.range (P.partial_rounds + P.full_rounds)).foldl
            (roundFn RATE CAPACITY P)
            (sp.state.capacity_state ++ sp.state.rate_state) := by
      simp only [permute, permuteState]
      exact List.take_append_drop CAPACITY _
    rw [hstate]
    unfold specPermute
    rw [Nat.add_comm P.full_rounds P.partial_rounds]
    apply foldl_congr_mem (fun l : List F => l.length = CAPACITY + RATE)
    · simp [hwf.1, hwf.2]
    · intro x i hx hi
      rw [List.mem_range] at hi
      have hilt : i < P.ark.length := by omega
      have hrow : (P.ark.getD i []).length = CAPACITY + RATE := by
        rw [List.getD_eq_getElem P.ark [] hilt]
        exact harkrow _ (List.getElem_mem hilt)
      exact ⟨roundFn_eq_spec RATE CAPACITY P x i hx hrow hmdslen hmdsrow,
        roundFn_length RATE CAPACITY P x i⟩
  · intro h8 h31 i hi
    unfold specPartialRound
    rw [h8, h31]

/-- C2: `absorb` on a non-empty input behaves exactly as the spec's
description: from `Squeezing{*}` one Permutation then offset 0; from
`Absorbing{rate}` one Permutation then offset 0; then chunked element-wise
addition — first chunk of up to `rate - offset` elements at `offset`, each
later chunk of up to `rate` elements preceded by one Permutation at offset
0, no trailing Permutation, final mode
`Absorbing{offset + chunk_length}`. -/
theorem absorb_matches_spec (RATE CAPACITY : ℕ) (P : PoseidonParameters F)
    (hR : 0 < RATE) (sp : PoseidonSponge F) (hmode : sp.mode.offsetOf ≤ RATE)
    (input : List F) (hne : input ≠ []) :
    absorb RATE CAPACITY P input sp = specAbsorb RATE CAPACITY P input sp := by
  rw [absorb_eq_fold RATE CAPACITY P hR sp hmode input]
  rw [specAbsorb_eq_fold RATE CAPACITY P hR sp hmode input hne]

/-- C3: `squeeze(n)` for `n > 0` returns exactly `n` elements and behaves
exactly as the spec's description: from `Absorbing{*}` one Permutation then
read from offset 0; from `Squeezing{rate}` one Permutation then offset 0;
then chunked copying from the rate region — `rate - offset` slots from
`offset`, each later chunk preceded by one Permutation at offset 0, no
trailing Permutation, final mode `Squeezing{offset + chunk_length}`, output
in copy order. -/
theorem squeeze_matches_spec (RATE CAPACITY : ℕ) (P : PoseidonParameters F)
    (hR : 0 < RATE) (sp : PoseidonSponge F) (hmode : sp.mode.offsetOf ≤ RATE)
    (hwf : SpongeWF RATE CAPACITY sp) (n : ℕ) (hn : 0 < n) :
    squeeze_field_elements RATE CAPACITY P n sp = specSqueeze RATE CAPACITY P n sp
    ∧ (squeeze_field_elements RATE CAPACITY P n sp).1.length = n := by
  constructor
  · rw [squeeze_eq_fold RATE CAPACITY P hR sp hmode hwf n]
    rw [specSqueeze_eq_fold RATE CAPACITY P hR sp hmode hwf n]
  · rw [squeeze_eq_fold RATE CAPACITY P hR sp hmode hwf n]
    exact squeezeN_length RATE CAPACITY P n sp

/-- C4: absorbing a sequence piece by piece (any decomposition into
consecutive pieces) leaves the sponge in exactly the same state and mode
as absorbing it in one call. -/
theorem absorb_chunk_invariance (RATE CAPACITY : ℕ) (P : PoseidonParameters F)
    (hR : 0 < RATE) :
    ∀ (pieces : List (List F)) (sp : PoseidonSponge F),
      sp.mode.offsetOf ≤ RATE →
      List.foldl (fun t p => absorb RATE CAPACITY P p t) sp pieces
        = absorb RATE CAPACITY P pieces.join sp := by
  intro pieces
  induction pieces with
  | nil =>
    intro sp h
    simp [absorb]
  | cons p ps ih =>
    intro sp h
    have hpres := absorb_offsetOf_le RATE CAPACITY P hR sp p h
    simp only [List.foldl_cons, List.join_cons]
    rw [ih (absorb RATE CAPACITY P p sp) hpres]
    rw [absorb_eq_fold RATE CAPACITY P hR (absorb RATE CAPACITY P p sp) hpres ps.join]
    rw [absorb_eq_fold RATE CAPACITY P hR sp h (p ++ ps.join)]
    rw [absorb_eq_fold RATE CAPACITY P hR sp h p]
    rw [absorbFold_append]

/-- C5: `squeeze(a)` then `squeeze(b)` with no intervening absorb produces,
as the concatenation of the two outputs, the same output as `squeeze(a+b)`
in one call, and the same final sponge. -/
theorem squeeze_composability (RATE CAPACITY : ℕ) (P : PoseidonParameters F)
    (hR : 0 < RATE) (sp : PoseidonSponge F) (hmode : sp.mode.offsetOf ≤ RATE)
    (hwf : SpongeWF RATE CAPACITY sp) (a b : ℕ) :
    (squeeze_field_elements RATE CAPACITY P (a + b) sp).1
        = (squeeze_field_elements RATE CAPACITY P a sp).1
          ++ (squeeze_field_elements RATE CAPACITY P b
                (squeeze_field_elements RATE CAPACITY P a sp).2).1
    ∧ (squeeze_field_elements RATE CAPACITY P (a + b) sp).2
        = (squeeze_field_elements RATE CAPACITY P b
            (squeeze_field_elements RATE CAPACITY P a sp).2).2 := by
  rw [squeeze_eq_fold RATE CAPACITY P hR sp hmode hwf a]
  have hmode' := squeezeN_offsetOf_le RATE CAPACITY P hR a sp hmode
  have hwf' := squeezeN_wf RATE CAPACITY P a sp hwf
  rw [squeeze_eq_fold RATE CAPACITY P hR _ hmode' hwf' b]
  rw [squeeze_eq_fold RATE CAPACITY P hR sp hmode hwf (a + b)]
  rw [squeezeN_add RATE CAPACITY P a b sp]
  exact ⟨rfl, rfl⟩

/-- C6: from `Absorbing{0}`, absorbing exactly `rate` elements runs no
Permutation and leaves mode `Absorbing{rate}`; the immediately following
non-empty absorb, or positive squeeze, permutes first (entering its
internal routine at offset 0 on the permuted sponge). -/
theorem exact_fill_boundary (RATE CAPACITY : ℕ) (P : PoseidonParameters F)
    (hR : 0 < RATE) (sp : PoseidonSponge F) (hmode : sp.mode = .Absorbing 0)
    (xs : List F) (hlen : xs.length = RATE) :
    (absorb RATE CAPACITY P xs sp).permCount = sp.permCount
    ∧ (absorb RATE CAPACITY P xs sp).mode = .Absorbing RATE
    ∧ (∀ ys : List F, ys ≠ [] →
        absorb RATE CAPACITY P ys (absorb RATE CAPACITY P xs sp)
          = absorb_internal RATE CAPACITY P 0 ys
              (permute RATE CAPACITY P (absorb RATE CAPACITY P xs sp)))
    ∧ (∀ n : ℕ, n ≠ 0 →
        squeeze_field_elements RATE CAPACITY P n (absorb RATE CAPACITY P xs sp)
          = squeeze_internal RATE CAPACITY P 0 n
              (permute RATE CAPACITY P (absorb RATE CAPACITY P xs sp))) := by
  obtain ⟨s, m, pc⟩ := sp
  simp only at hmode
  subst hmode
  have hmode' : (⟨s, .Absorbing 0, pc⟩ : PoseidonSponge F).mode.offsetOf ≤ RATE := by
    simp [DuplexSpongeMode.offsetOf]
  have habs : absorb RATE CAPACITY P xs ⟨s, .Absorbing 0, pc⟩
      = { addChunkSp 0 xs ⟨s, .Absorbing 0, pc⟩ with mode := .Absorbing RATE } := by
    rw [absorb_eq_fold RATE CAPACITY P hR _ hmode' xs]
    have h0 : (⟨s, .Absorbing 0, pc⟩ : PoseidonSponge F)
        = { (⟨s, .Absorbing 0, pc⟩ : PoseidonSponge F) with mode := .Absorbing 0 } := rfl
    rw [h0, absorbFold_chunk RATE CAPACITY P xs 0 _ (by omega)]
    rw [Nat.zero_add, hlen]
  refine ⟨?_, ?_, ?_, ?_⟩
  · rw [habs]
    simp [addChunkSp]
  · rw [habs]
  · intro ys hys
    rw [habs]
    cases ys with
    | nil => exact absurd rfl hys
    | cons z zs =>
      simp only [absorb, List.isEmpty_cons, Bool.false_eq_true, if_false,
        eq_self_iff_true, if_true]
  · intro n hn
    rw [habs]
    simp only [squeeze_field_elements, if_neg hn]

/-- C7: the sponge is deterministic and has no hidden state: two sponges
agreeing on state and mode (the ghost permutation counter may differ)
produce identical final state, mode and output under any identical call
sequence, and repeated `evaluate` calls on the same parameters and input
give the identical element. -/
theorem sponge_determinism (RATE CAPACITY : ℕ) (P : PoseidonParameters F)
    (sp1 sp2 : PoseidonSponge F) (hs : sp1.state = sp2.state)
    (hm : sp1.mode = sp2.mode) (calls : List (SpongeCall F)) :
    (runCalls RATE CAPACITY P calls sp1).1.state
        = (runCalls RATE CAPACITY P calls sp2).1.state
    ∧ (runCalls RATE CAPACITY P calls sp1).1.mode
        = (runCalls RATE CAPACITY P calls sp2).1.mode
    ∧ (runCalls RATE CAPACITY P calls sp1).2
        = (runCalls RATE CAPACITY P calls sp2).2
    ∧ (∀ input : List F, evaluate RATE P input = evaluate RATE P input) := by
  have h := runCalls_obs RATE CAPACITY P calls sp1 sp2 hs hm
  exact ⟨h.1, h.2.1, h.2.2, fun _ => rfl⟩

/-- C8: `absorb([])` and `squeeze(0)` are complete no-ops: no Permutation
runs (the sponge, ghost counter included, is unchanged) and `squeeze(0)`
returns the empty sequence. -/
theorem noop_boundaries (RATE CAPACITY : ℕ) (P : PoseidonParameters F)
    (sp : PoseidonSponge F) :
    absorb RATE CAPACITY P [] sp = sp
    ∧ squeeze_field_elements RATE CAPACITY P 0 sp = ([], sp) :=
  ⟨by simp [absorb], by simp [squeeze_field_elements]⟩

/-- C9: the mode is `Absorbing{offset}` or `Squeezing{offset}` with
`offset ∈ [0, rate]`: a fresh sponge starts at `Absorbing{0}`, every absorb
and squeeze preserves the offset bound, and the bound holds after any
(unbounded) sequence of calls from a fresh sponge — there is no terminal
state. -/
theorem mode_invariant (RATE CAPACITY : ℕ) (P : PoseidonParameters F)
    (hR : 0 < RATE) :
    ((with_parameters RATE CAPACITY : PoseidonSponge F).mode = .Absorbing 0)
    ∧ (∀ (sp : PoseidonSponge F) (xs : List F), sp.mode.offsetOf ≤ RATE →
        (absorb RATE CAPACITY P xs sp).mode.offsetOf ≤ RATE)
    ∧ (∀ (sp : PoseidonSponge F) (n : ℕ), sp.mode.offsetOf ≤ RATE →
        SpongeWF RATE CAPACITY sp →
        (squeeze_field_elements RATE CAPACITY P n sp).2.mode.offsetOf ≤ RATE)
    ∧ (∀ calls : List (SpongeCall F),
        (runCalls RATE CAPACITY P calls
          (with_parameters RATE CAPACITY)).1.mode.offsetOf ≤ RATE) := by
  refine ⟨rfl, ?_, ?_, ?_⟩
  · intro sp xs h
    exact absorb_offsetOf_le RATE CAPACITY P hR sp xs h
  · intro sp n h hw
    exact squeeze_offsetOf_le RATE CAPACITY P hR sp h hw n
  · intro calls
    exact (runCalls_inv RATE CAPACITY P hR calls (with_parameters RATE CAPACITY)
      (by simp [with_parameters, DuplexSpongeMode.offsetOf])
      (with_parameters_wf RATE CAPACITY)).1

/-- C10: `State::range` aborts (modelled as `none`) exactly when the range
is empty (`start ≥ end`) or extends past the state width
(`end > RATE + CAPACITY`); in particular an empty range is rejected rather
than producing an empty iterator. -/
theorem range_asserts (RATE CAPACITY : ℕ) (s : State F) (start stop : ℕ) :
    State.range RATE CAPACITY s start stop = none
      ↔ (stop ≤ start ∨ RATE + CAPACITY < stop) := by
  unfold State.range
  split_ifs with h1 h2 h3 h4 <;> simp <;> omega

/-!
## Concrete witnesses
-/

/-- A tiny concrete parameter set (`RATE = 2`, `CAPACITY = 1`). -/
def egP : PoseidonParameters (ZMod 5) :=
  ⟨2, 1, 3, List.replicate 3 (List.replicate 3 0), List.replicate 3 (List.replicate 3 1)⟩

/-- A concrete parameter set with the production round counts
(`full_rounds = 8`, `partial_rounds = 31`). -/
def egP8 : PoseidonParameters (ZMod 5) :=
  ⟨8, 31, 5, List.replicate 39 (List.replicate 3 0), List.replicate 3 (List.replicate 3 1)⟩

/-- A fresh concrete sponge for `RATE = 2`, `CAPACITY = 1`. -/
def egSp : PoseidonSponge (ZMod 5) := ⟨⟨[0], [0, 0]⟩, .Absorbing 0, 0⟩

/-- The same observable sponge with a different ghost counter. -/
def egSp2 : PoseidonSponge (ZMod 5) := ⟨⟨[0], [0, 0]⟩, .Absorbing 0, 7⟩

theorem permutation_matches_round_spec_witness :
    ((permute 2 1 egP8 egSp).state.capacity_state
        ++ (permute 2 1 egP8 egSp).state.rate_state
      = specPermute 2 1 egP8 (egSp.state.capacity_state ++ egSp.state.rate_state))
    ∧ (specPartialRound egP8 10 ↔ 4 ≤ 10 ∧ 10 < 35) :=
  let h := permutation_matches_round_spec 2 1 egP8 egSp (by decide) (by decide)
    (by decide) (by decide) ⟨rfl, rfl⟩
  ⟨h.1, h.2 rfl rfl 10 (by decide)⟩

theorem absorb_matches_spec_witness :
    absorb 2 1 egP [1, 2, 3] egSp = specAbsorb 2 1 egP [1, 2, 3] egSp :=
  absorb_matches_spec 2 1 egP (by decide) egSp (by decide) [1, 2, 3] (by decide)

theorem squeeze_matches_spec_witness :
    (squeeze_field_elements 2 1 egP 3 egSp = specSqueeze 2 1 egP 3 egSp)
    ∧ (squeeze_field_elements 2 1 egP 3 egSp).1.length = 3 :=
  squeeze_matches_spec 2 1 egP (by decide) egSp (by decide) ⟨rfl, rfl⟩ 3 (by decide)

theorem absorb_chunk_invariance_witness :
    List.foldl (fun t p => absorb 2 1 egP p t) egSp [[1], [2, 3]]
      = absorb 2 1 egP ([[1], [2, 3]] : List (List (ZMod 5))).join egSp :=
  absorb_chunk_invariance 2 1 egP (by decide) [[1], [2, 3]] egSp (by decide)

theorem squeeze_composability_witness :
    (squeeze_field_elements 2 1 egP (1 + 2) egSp).1
        = (squeeze_field_elements 2 1 egP 1 egSp).1
          ++ (squeeze_field_elements 2 1 egP 2
                (squeeze_field_elements 2 1 egP 1 egSp).2).1
    ∧ (squeeze_field_elements 2 1 egP (1 + 2) egSp).2
        = (squeeze_field_elements 2 1 egP 2
            (squeeze_field_elements 2 1 egP 1 egSp).2).2 :=
  squeeze_composability 2 1 egP (by decide) egSp (by decide) ⟨rfl, rfl⟩ 1 2

theorem exact_fill_boundary_witness :
    (absorb 2 1 egP [1, 2] egSp).permCount = egSp.permCount
    ∧ (absorb 2 1 egP [1, 2] egSp).mode = .Absorbing 2
    ∧ absorb 2 1 egP [3] (absorb 2 1 egP [1, 2] egSp)
        = absorb_internal 2 1 egP 0 [3]
            (permute 2 1 egP (absorb 2 1 egP [1, 2] egSp))
    ∧ squeeze_field_elements 2 1 egP 1 (absorb 2 1 egP [1, 2] egSp)
        = squeeze_internal 2 1 egP 0 1
            (permute 2 1 egP (absorb 2 1 egP [1, 2] egSp)) :=
  let h := exact_fill_boundary 2 1 egP (by decide) egSp rfl [1, 2] (by decide)
  ⟨h.1, h.2.1, h.2.2.1 [3] (by decide), h.2.2.2 1 (by decide)⟩

theorem sponge_determinism_witness :
    (runCalls 2 1 egP [.absorbCall [1], .squeezeCall 1] egSp).1.state
        = (runCalls 2 1 egP [.absorbCall [1], .squeezeCall 1] egSp2).1.state
    ∧ (runCalls 2 1 egP [.absorbCall [1], .squeezeCall 1] egSp).1.mode
        = (runCalls 2 1 egP [.absorbCall [1], .squeezeCall 1] egSp2).1.mode
    ∧ (runCalls 2 1 egP [.absorbCall [1], .squeezeCall 1] egSp).2
        = (runCalls 2 1 egP [.absorbCall [1], .squeezeCall 1] egSp2).2
    ∧ evaluate 2 egP [1] = evaluate 2 egP [1] :=
  let h := sponge_determinism 2 1 egP egSp egSp2 rfl rfl
    [.absorbCall [1], .squeezeCall 1]
  ⟨h.1, h.2.1, h.2.2.1, h.2.2.2 [1]⟩

theorem mode_invariant_witness :
    ((with_parameters 2 1 : PoseidonSponge (ZMod 5)).mode = .Absorbing 0)
    ∧ (absorb 2 1 egP [1, 2, 3] egSp).mode.offsetOf ≤ 2
    ∧ (squeeze_field_elements 2 1 egP 2 egSp).2.mode.offsetOf ≤ 2
    ∧ (runCalls 2 1 egP [.absorbCall [1], .squeezeCall 1]
        (with_parameters 2 1)).1.mode.offsetOf ≤ 2 :=
  let h := mode_invariant 2 1 egP (by decide)
  ⟨h.1, h.2.1 egSp [1, 2, 3] (by decide),
    h.2.2.1 egSp 2 (by decide) ⟨rfl, rfl⟩,
    h.2.2.2 [.absorbCall [1], .squeezeCall 1]⟩

end Poseidon
